import Mathlib

/-!
Verification development for the `encodings` repository.

Part 1 models the H₂/STO-3G integral engine `compute_K01.py`: the Boys
function, primitive Gaussian integrals (overlap, kinetic, nuclear
attraction, electron repulsion), contraction over STO-3G primitives,
the AO→MO transform and the Hartree-Fock / FCI energies.  Python's
floating-point arithmetic is modelled by exact real arithmetic, and the
`math.erf` library routine by its mathematical definition
`erf x = (2/√π) ∫₀ˣ exp(-t²) dt`.

Part 2 models the HTML post-processing utility
`scripts/inject_pages_runtime.py` at the level of character lists and
proves that injection is idempotent.
-/

set_option maxRecDepth 10000

open Real Filter Topology

namespace ComputeK01

noncomputable section

/-- Real 3-component vector, the model of a numpy length-3 array. -/
def V3 : Type := Fin 3 → ℝ

/-- Model of `np.sum((Ra - Rb)**2)`: squared euclidean distance of two centers. -/
def dist2 (x y : V3) : ℝ := ∑ i : Fin 3, (x i - y i) ^ 2

/-- Model of Python's `math.erf`: `erf x = (2/√π) · ∫₀ˣ exp(-t²) dt`. -/
def erf (x : ℝ) : ℝ := 2 / Real.sqrt π * ∫ t in (0:ℝ)..x, Real.exp (-(t ^ 2))

/-- The Boys function `boys_F0(T)`: `1.0` below the `1e-15` tolerance, else the closed form
`0.5·√(π/T)·erf(√T)`  (source: `compute_K01.py`, `boys_F0`). -/
def boys_F0 (T : ℝ) : ℝ :=
  if T < 1e-15 then 1.0 else 0.5 * Real.sqrt (π / T) * erf (Real.sqrt T)

/-- Primitive overlap `overlap_1d(a, b, Ra, Rb) = (π/γ)^1.5 · exp(-a·b/γ·|Ra-Rb|²)`, `γ = a+b`. -/
def overlap_1d (a b : ℝ) (Ra Rb : V3) : ℝ :=
  let gamma := a + b
  (π / gamma) ^ (1.5 : ℝ) * Real.exp (-(a * b / gamma * dist2 Ra Rb))

/-- Primitive electron-repulsion integral `(ab|cd)` over s-type Gaussians
(source: `compute_K01.py`, `eri_ssss`). -/
def eri_ssss (a b c d : ℝ) (Ra Rb Rc Rd : V3) : ℝ :=
  let p := a + b
  let q := c + d
  let Rp : V3 := fun i => (a * Ra i + b * Rb i) / p
  let Rq : V3 := fun i => (c * Rc i + d * Rd i) / q
  let RPQ2 := dist2 Rp Rq
  let RAB2 := dist2 Ra Rb
  let RCD2 := dist2 Rc Rd
  let alpha_pq := p * q / (p + q)
  let T := alpha_pq * RPQ2
  let prefactor := 2.0 * π ^ (2.5 : ℝ) / (p * q * Real.sqrt (p + q)) *
    Real.exp (-(a * b / p * RAB2)) * Real.exp (-(c * d / q * RCD2))
  prefactor * boys_F0 T

/-- Function `kinetic_1d`: kinetic-energy integral between two s-type Gaussians. -/
def kinetic_1d (a b : ℝ) (Ra Rb : V3) : ℝ :=
  let p := a + b
  let mu := a * b / p
  let RAB2 := dist2 Ra Rb
  let S := (π / p) ^ (1.5 : ℝ) * Real.exp (-(mu * RAB2))
  mu * (3.0 - 2.0 * mu * RAB2) * S

/-- Function `nuclear_attraction`: nuclear-attraction integral, nucleus at `Rc`. -/
def nuclear_attraction (a b : ℝ) (Ra Rb Rc : V3) (Z : ℝ) : ℝ :=
  let p := a + b
  let Rp : V3 := fun i => (a * Ra i + b * Rb i) / p
  let RAB2 := dist2 Ra Rb
  let RPC2 := dist2 Rp Rc
  let T := p * RPC2;
  -Z * 2.0 * π / p * Real.exp (-(a * b / p * RAB2)) * boys_F0 T

/-- Raw STO-3G exponents (Hehre, Stewart, Pople 1969). -/
def alpha_raw : Fin 3 → ℝ := ![3.42525091, 0.62391373, 0.16885540]

/-- Raw STO-3G contraction coefficients. -/
def d_raw : Fin 3 → ℝ := ![0.15432897, 0.53532814, 0.44463454]

/-- Scale factor `zeta = 1.0`. -/
def zeta : ℝ := 1.0

/-- Scaled exponents `alpha = alpha_raw * zeta**2`. -/
def alpha (i : Fin 3) : ℝ := alpha_raw i * zeta ^ 2

/-- Primitive self-normalization `norm(a) = (2a/π)^(3/4)`. -/
def norm (a : ℝ) : ℝ := (2.0 * a / π) ^ (0.75 : ℝ)

/-- Contracted coefficients including primitive normalization. -/
def coeff (i : Fin 3) : ℝ := d_raw i * norm (alpha i)

/-- Number of primitives `n_prim = len(alpha)`. -/
def n_prim : ℕ := 3

/-- Bond length `R_angstrom = 0.7414`. -/
def R_angstrom : ℝ := 0.7414

/-- Constant `bohr_from_Vnn = 0.7151043390810812 * R_angstrom`. -/
def bohr_from_Vnn : ℝ := 0.7151043390810812 * R_angstrom

/-- Bond length `R_bohr = R_angstrom / bohr_from_Vnn`. -/
def R_bohr : ℝ := R_angstrom / bohr_from_Vnn

/-- Atom A at the origin. -/
def A : V3 := ![0.0, 0.0, 0.0]

/-- Atom B at `(0, 0, R_bohr)`. -/
def B : V3 := ![0.0, 0.0, R_bohr]

/-- Contracted AO ERI `ao_eri(centers)`: contracted AO electron-repulsion integral, the
quadruple python loop over primitives modelled by nested left folds
(one fold per `for` loop, accumulating into `result`). -/
def ao_eri (c1 c2 c3 c4 : V3) : ℝ :=
  (List.finRange n_prim).foldl (fun result i =>
    (List.finRange n_prim).foldl (fun result j =>
      (List.finRange n_prim).foldl (fun result k =>
        (List.finRange n_prim).foldl (fun result l =>
          result + coeff i * coeff j * coeff k * coeff l *
            eri_ssss (alpha i) (alpha j) (alpha k) (alpha l) c1 c2 c3 c4)
          result) result) result) 0.0

def eri_AAAA : ℝ := ao_eri A A A A
def eri_BBBB : ℝ := ao_eri B B B B
def eri_AABB : ℝ := ao_eri A A B B
def eri_ABAB : ℝ := ao_eri A B A B
def eri_ABBA : ℝ := ao_eri A B B A

/-- Overlap `S_AB`: contracted AO overlap, the double python accumulation loop. -/
def S_AB : ℝ :=
  (List.finRange n_prim).foldl (fun s i =>
    (List.finRange n_prim).foldl (fun s j =>
      s + coeff i * coeff j * overlap_1d (alpha i) (alpha j) A B) s) 0.0

/-! ### The MO coefficient matrix and the rest of the engine pipeline -/

/-- Normalization `norm_g = 1/√(2 + 2·S_AB)`, normalization of the bonding MO. -/
def norm_g : ℝ := 1.0 / Real.sqrt (2.0 + 2.0 * S_AB)

/-- Normalization `norm_u = 1/√(2 - 2·S_AB)`, normalization of the antibonding MO. -/
def norm_u : ℝ := 1.0 / Real.sqrt (2.0 - 2.0 * S_AB)

/-- MO coefficient matrix `C[ao, mo]` (row: AO, column: MO). -/
def C : Matrix (Fin 2) (Fin 2) ℝ := !![norm_g, norm_u; norm_g, -norm_u]

/-- Centers `centers_list = [A, B]`. -/
def centers_list : Fin 2 → V3 := ![A, B]

/-- The full AO ERI tensor `ao_eri_tensor[μ,ν,λ,σ]`. -/
def ao_eri_tensor (mu nu lam sig : Fin 2) : ℝ :=
  ao_eri (centers_list mu) (centers_list nu) (centers_list lam) (centers_list sig)

/-- The four-index AO→MO transform
`mo_eri[p,q,r,s] = Σ_{μνλσ} C[μ,p]·C[ν,q]·C[λ,r]·C[σ,s]·ao_eri_tensor[μ,ν,λ,σ]`
(the `np.einsum` contraction). -/
def mo_eri (p q r s : Fin 2) : ℝ :=
  ∑ mu : Fin 2, ∑ nu : Fin 2, ∑ lam : Fin 2, ∑ sig : Fin 2,
    C mu p * C nu q * C lam r * C sig s * ao_eri_tensor mu nu lam sig

/-- One-electron AO matrix `h_ao = T + V` (kinetic plus nuclear attraction
from both nuclei, contracted over primitives). -/
def h_ao : Matrix (Fin 2) (Fin 2) ℝ := Matrix.of fun i j =>
  (∑ a_idx : Fin 3, ∑ b_idx : Fin 3,
      coeff a_idx * coeff b_idx *
        kinetic_1d (alpha a_idx) (alpha b_idx) (centers_list i) (centers_list j)) +
  (∑ a_idx : Fin 3, ∑ b_idx : Fin 3,
      coeff a_idx * coeff b_idx *
        (nuclear_attraction (alpha a_idx) (alpha b_idx) (centers_list i) (centers_list j) A 1.0 +
         nuclear_attraction (alpha a_idx) (alpha b_idx) (centers_list i) (centers_list j) B 1.0))

/-- Transformed matrix `h_mo = C.T @ h_ao @ C`. -/
def h_mo : Matrix (Fin 2) (Fin 2) ℝ := C.transpose * h_ao * C

/-- Nuclear repulsion `V_nn = 1.0 / R_bohr`. -/
def V_nn : ℝ := 1.0 / R_bohr

/-- Electronic HF energy `E_HF_elec = 2·h_mo[0,0] + mo_eri[0,0,0,0]`. -/
def E_HF_elec : ℝ := 2.0 * h_mo 0 0 + mo_eri 0 0 0 0

/-- Total HF energy `E_HF_total = E_HF_elec + V_nn`. -/
def E_HF_total : ℝ := E_HF_elec + V_nn

def diag_00 : ℝ := E_HF_elec
def diag_11 : ℝ := 2.0 * h_mo 1 1 + mo_eri 1 1 1 1
def off_diag : ℝ := mo_eri 0 1 0 1
def avg : ℝ := (diag_00 + diag_11) / 2.0
def diff : ℝ := (diag_00 - diag_11) / 2.0

/-- Electronic FCI energy `E_FCI_elec = avg - √(diff² + off_diag²)`. -/
def E_FCI_elec : ℝ := avg - Real.sqrt (diff ^ 2 + off_diag ^ 2)

/-- Total FCI energy `E_FCI_total = E_FCI_elec + V_nn`. -/
def E_FCI_total : ℝ := E_FCI_elec + V_nn

/-- The FCI ground-state eigenvalue of a symmetric 2×2 CI matrix with
diagonal `d0, d1` and off-diagonal `K`, as computed by the engine. -/
def fci_ground (d0 d1 K : ℝ) : ℝ :=
  (d0 + d1) / 2.0 - Real.sqrt (((d0 - d1) / 2.0) ^ 2 + K ^ 2)

/-- Atom B as a function of the internuclear distance; `B = Bvec R_bohr`. -/
def Bvec (R : ℝ) : V3 := ![0.0, 0.0, R]

/-- The contracted AO overlap as a function of the internuclear distance:
the `S_AB` accumulation loop with atom B at distance `R` from atom A. -/
def S_fun (R : ℝ) : ℝ :=
  ∑ i : Fin 3, ∑ j : Fin 3,
    coeff i * coeff j * overlap_1d (alpha i) (alpha j) A (Bvec R)

/-- Point reflection through the bond midpoint: the isometry of the
homonuclear diatomic that exchanges atom A and atom B. -/
def mirror (x : V3) : V3 := fun i => B i - x i

/-- Left fold that accumulates `f` equals `init` plus the sum. -/
theorem foldl_add_eq_sum {α : Type} (f : α → ℝ) :
    ∀ (l : List α) (init : ℝ),
      l.foldl (fun acc x => acc + f x) init = init + (l.map f).sum := by
  intro l
  induction l with
  | nil => intro init; simp
  | cons x xs ih =>
    intro init
    simp only [List.foldl_cons, List.map_cons, List.sum_cons, ih (init + f x)]
    ring

/-- Fold over `finRange` as a `Finset.univ` sum. -/
theorem foldl_add_eq_univ_sum (f : Fin 3 → ℝ) (init : ℝ) :
    (List.finRange 3).foldl (fun acc x => acc + f x) init = init + ∑ i : Fin 3, f i := by
  rw [foldl_add_eq_sum, Fin.sum_univ_def]

end

/-! ### Claim C1: the two branches of the Boys function -/

/-- C1.  `boys_F0` returns exactly `1.0` for arguments below the `1e-15`
tolerance (in particular `boys_F0 0 = 1`), and `0.5·√(π/T)·erf(√T)` for
every argument at or above the tolerance. -/
theorem boys_F0_branches :
    boys_F0 0 = 1 ∧
    (∀ T : ℝ, T < 1e-15 → boys_F0 T = 1) ∧
    (∀ T : ℝ, 1e-15 ≤ T →
      boys_F0 T = 0.5 * Real.sqrt (π / T) * erf (Real.sqrt T)) := by
  refine ⟨?_, fun T hT => ?_, fun T hT => ?_⟩
  · rw [boys_F0, if_pos (by norm_num)]; norm_num
  · rw [boys_F0, if_pos hT]; norm_num
  · rw [boys_F0, if_neg (not_lt.mpr hT)]

/-- Witness for C1 at the concrete inputs `T = 0` and `T = 1`. -/
theorem boys_F0_branches_witness :
    boys_F0 0 = 1 ∧ boys_F0 1 = 0.5 * Real.sqrt (π / 1) * erf (Real.sqrt 1) :=
  ⟨boys_F0_branches.1, boys_F0_branches.2.2 1 (by norm_num)⟩

/-! ### Claim C7: contraction is the nested weighted sum over primitives -/

/-- The quadruple accumulation loop of `ao_eri` equals the nested sum. -/
theorem ao_eri_eq_sum (c1 c2 c3 c4 : V3) :
    ao_eri c1 c2 c3 c4 =
      ∑ i : Fin 3, ∑ j : Fin 3, ∑ k : Fin 3, ∑ l : Fin 3,
        coeff i * coeff j * coeff k * coeff l *
          eri_ssss (alpha i) (alpha j) (alpha k) (alpha l) c1 c2 c3 c4 := by
  rw [ao_eri]
  have h4 : ∀ (i j k : Fin 3) (r : ℝ),
      (List.finRange n_prim).foldl (fun result l =>
          result + coeff i * coeff j * coeff k * coeff l *
            eri_ssss (alpha i) (alpha j) (alpha k) (alpha l) c1 c2 c3 c4) r =
        r + ∑ l : Fin 3, coeff i * coeff j * coeff k * coeff l *
            eri_ssss (alpha i) (alpha j) (alpha k) (alpha l) c1 c2 c3 c4 := by
    intro i j k r; exact foldl_add_eq_univ_sum _ r
  have h3 : ∀ (i j : Fin 3) (r : ℝ),
      (List.finRange n_prim).foldl (fun result k =>
          (List.finRange n_prim).foldl (fun result l =>
            result + coeff i * coeff j * coeff k * coeff l *
              eri_ssss (alpha i) (alpha j) (alpha k) (alpha l) c1 c2 c3 c4) result) r =
        r + ∑ k : Fin 3, ∑ l : Fin 3, coeff i * coeff j * coeff k * coeff l *
            eri_ssss (alpha i) (alpha j) (alpha k) (alpha l) c1 c2 c3 c4 := by
    intro i j r
    have : (fun (result : ℝ) (k : Fin 3) =>
        (List.finRange n_prim).foldl (fun result l =>
          result + coeff i * coeff j * coeff k * coeff l *
            eri_ssss (alpha i) (alpha j) (alpha k) (alpha l) c1 c2 c3 c4) result) =
        fun (result : ℝ) (k : Fin 3) =>
          result + ∑ l : Fin 3, coeff i * coeff j * coeff k * coeff l *
            eri_ssss (alpha i) (alpha j) (alpha k) (alpha l) c1 c2 c3 c4 := by
      funext r k; exact h4 i j k r
    rw [this]; exact foldl_add_eq_univ_sum _ r
  have h2 : ∀ (i : Fin 3) (r : ℝ),
      (List.finRange n_prim).foldl (fun result j =>
          (List.finRange n_prim).foldl (fun result k =>
            (List.finRange n_prim).foldl (fun result l =>
              result + coeff i * coeff j * coeff k * coeff l *
                eri_ssss (alpha i) (alpha j) (alpha k) (alpha l) c1 c2 c3 c4)
              result) result) r =
        r + ∑ j : Fin 3, ∑ k : Fin 3, ∑ l : Fin 3,
            coeff i * coeff j * coeff k * coeff l *
              eri_ssss (alpha i) (alpha j) (alpha k) (alpha l) c1 c2 c3 c4 := by
    intro i r
    have : (fun (result : ℝ) (j : Fin 3) =>
        (List.finRange n_prim).foldl (fun result k =>
          (List.finRange n_prim).foldl (fun result l =>
            result + coeff i * coeff j * coeff k * coeff l *
              eri_ssss (alpha i) (alpha j) (alpha k) (alpha l) c1 c2 c3 c4)
            result) result) =
        fun (result : ℝ) (j : Fin 3) =>
          result + ∑ k : Fin 3, ∑ l : Fin 3, coeff i * coeff j * coeff k * coeff l *
            eri_ssss (alpha i) (alpha j) (alpha k) (alpha l) c1 c2 c3 c4 := by
      funext r j; exact h3 i j r
    rw [this]; exact foldl_add_eq_univ_sum _ r
  have h1 : (fun (result : ℝ) (i : Fin 3) =>
      (List.finRange n_prim).foldl (fun result j =>
        (List.finRange n_prim).foldl (fun result k =>
          (List.finRange n_prim).foldl (fun result l =>
            result + coeff i * coeff j * coeff k * coeff l *
              eri_ssss (alpha i) (alpha j) (alpha k) (alpha l) c1 c2 c3 c4)
            result) result) result) =
      fun (result : ℝ) (i : Fin 3) =>
        result + ∑ j : Fin 3, ∑ k : Fin 3, ∑ l : Fin 3,
          coeff i * coeff j * coeff k * coeff l *
            eri_ssss (alpha i) (alpha j) (alpha k) (alpha l) c1 c2 c3 c4 := by
    funext r i; exact h2 i r
  rw [h1]
  refine (foldl_add_eq_univ_sum _ 0.0).trans ?_
  norm_num

/-- The double accumulation loop of `S_AB` equals the double sum. -/
theorem S_AB_eq_sum :
    S_AB = ∑ i : Fin 3, ∑ j : Fin 3,
      coeff i * coeff j * overlap_1d (alpha i) (alpha j) A B := by
  rw [S_AB]
  have h1 : (fun (s : ℝ) (i : Fin 3) =>
      (List.finRange n_prim).foldl (fun s j =>
        s + coeff i * coeff j * overlap_1d (alpha i) (alpha j) A B) s) =
      fun (s : ℝ) (i : Fin 3) =>
        s + ∑ j : Fin 3, coeff i * coeff j * overlap_1d (alpha i) (alpha j) A B := by
    funext s i; exact foldl_add_eq_univ_sum _ s
  rw [h1]
  refine (foldl_add_eq_univ_sum _ 0.0).trans ?_
  norm_num

/-- C7.  Every contracted AO integral is the nested sum over all primitive
index combinations of the product of normalized contraction coefficients
with the primitive integral: the quadruple (≤ 81-term) sum for the
two-electron integrals and the analogous double sum for the overlap. -/
theorem contraction_is_nested_sum :
    (∀ c1 c2 c3 c4 : V3,
      ao_eri c1 c2 c3 c4 =
        ∑ i : Fin 3, ∑ j : Fin 3, ∑ k : Fin 3, ∑ l : Fin 3,
          coeff i * coeff j * coeff k * coeff l *
            eri_ssss (alpha i) (alpha j) (alpha k) (alpha l) c1 c2 c3 c4) ∧
    S_AB = ∑ i : Fin 3, ∑ j : Fin 3,
      coeff i * coeff j * overlap_1d (alpha i) (alpha j) A B :=
  ⟨ao_eri_eq_sum, S_AB_eq_sum⟩

/-! ### Claim C2: the MO coefficient matrix and the AO→MO transforms -/

/-- C2.  The columns of `C` are the symmetric and antisymmetric AO
combinations normalized by `1/√(2+2·S_AB)` and `1/√(2-2·S_AB)`;
`h_mo = Cᵀ·h_ao·C` entrywise, and `mo_eri` is the full four-index
contraction of `ao_eri_tensor` through `C`. -/
theorem mo_transform_spec :
    (C 0 0 = 1 / Real.sqrt (2 + 2 * S_AB) ∧ C 1 0 = 1 / Real.sqrt (2 + 2 * S_AB) ∧
     C 0 1 = 1 / Real.sqrt (2 - 2 * S_AB) ∧ C 1 1 = -(1 / Real.sqrt (2 - 2 * S_AB))) ∧
    (∀ p q : Fin 2, h_mo p q = ∑ mu : Fin 2, ∑ nu : Fin 2, C mu p * h_ao mu nu * C nu q) ∧
    (∀ p q r s : Fin 2, mo_eri p q r s =
      ∑ mu : Fin 2, ∑ nu : Fin 2, ∑ lam : Fin 2, ∑ sig : Fin 2,
        C mu p * C nu q * C lam r * C sig s * ao_eri_tensor mu nu lam sig) := by
  refine ⟨⟨?_, ?_, ?_, ?_⟩, fun p q => ?_, fun p q r s => rfl⟩
  · show norm_g = _; rw [norm_g]; norm_num
  · show norm_g = _; rw [norm_g]; norm_num
  · show norm_u = _; rw [norm_u]; norm_num
  · show -norm_u = _; rw [norm_u]; norm_num
  · rw [h_mo]
    simp only [Matrix.mul_apply, Matrix.transpose_apply, Finset.sum_mul]
    rw [Finset.sum_comm]

/-! ### Claim C3: Hartree-Fock and FCI energy formulas -/

/-- C3.  `E_HF_elec = 2·h_mo[0,0] + mo_eri[0,0,0,0]`, the total energy adds
the nuclear repulsion `Z_A·Z_B/R = 1·1/R_bohr`, and the FCI ground-state
energy is `avg - √(diff² + K²)` with `K = mo_eri[0,1,0,1]` and the stated
`avg`, `diff`, `diag` combinations. -/
theorem energy_solver_formulas :
    E_HF_elec = 2 * h_mo 0 0 + mo_eri 0 0 0 0 ∧
    E_HF_total = E_HF_elec + 1 * 1 / R_bohr ∧
    E_FCI_elec = (diag_00 + diag_11) / 2 -
      Real.sqrt (((diag_00 - diag_11) / 2) ^ 2 + mo_eri 0 1 0 1 ^ 2) ∧
    diag_00 = 2 * h_mo 0 0 + mo_eri 0 0 0 0 ∧
    diag_11 = 2 * h_mo 1 1 + mo_eri 1 1 1 1 ∧
    E_FCI_total = E_FCI_elec + 1 * 1 / R_bohr := by
  refine ⟨?_, ?_, ?_, ?_, ?_, ?_⟩
  · rw [E_HF_elec]; norm_num
  · rw [E_HF_total, V_nn]; norm_num
  · rw [E_FCI_elec, avg, diff, off_diag]; norm_num
  · rw [diag_00, E_HF_elec]; norm_num
  · rw [diag_11]; norm_num
  · rw [E_FCI_total, V_nn]; norm_num

/-! ### Claim C4: exchange symmetry of the transformed tensor -/

theorem dist2_comm (x y : V3) : dist2 x y = dist2 y x :=
  Finset.sum_congr rfl fun i _ => by ring

/-- The primitive ERI is symmetric under exchanging the third and fourth
primitives together with their centers. -/
theorem eri_ssss_swap34 (a b c d : ℝ) (Ra Rb Rc Rd : V3) :
    eri_ssss a b c d Ra Rb Rc Rd = eri_ssss a b d c Ra Rb Rd Rc := by
  simp only [eri_ssss]
  have h3 : (fun i => (c * Rc i + d * Rd i) / (c + d)) =
      (fun i => (d * Rd i + c * Rc i) / (d + c)) := by
    funext i; ring_nf
  rw [h3, dist2_comm Rc Rd, show c + d = d + c from by ring,
    show c * d = d * c from by ring]

/-- The loop-level AO ERI inherits the symmetry in its last two centers. -/
theorem ao_eri_swap34 (c1 c2 c3 c4 : V3) :
    ao_eri c1 c2 c3 c4 = ao_eri c1 c2 c4 c3 := by
  rw [ao_eri_eq_sum, ao_eri_eq_sum]
  refine Finset.sum_congr rfl fun i _ => Finset.sum_congr rfl fun j _ => ?_
  rw [Finset.sum_comm]
  refine Finset.sum_congr rfl fun k _ => Finset.sum_congr rfl fun l _ => ?_
  rw [eri_ssss_swap34 (alpha i) (alpha j) (alpha l) (alpha k) c1 c2 c3 c4]
  ring

theorem ao_eri_tensor_swap34 (mu nu lam sig : Fin 2) :
    ao_eri_tensor mu nu lam sig = ao_eri_tensor mu nu sig lam :=
  ao_eri_swap34 _ _ _ _

/-- C4.  For the MO tensor produced by the four-index transform from the
engine's AO tensor (which satisfies the real-integral permutational
symmetry), the two exchange entries agree exactly:
`mo_eri[0,1,0,1] = mo_eri[0,1,1,0]`. -/
theorem mo_eri_exchange_symmetric : mo_eri 0 1 0 1 = mo_eri 0 1 1 0 := by
  rw [mo_eri, mo_eri]
  refine Finset.sum_congr rfl fun mu _ => Finset.sum_congr rfl fun nu _ => ?_
  rw [Finset.sum_comm]
  refine Finset.sum_congr rfl fun lam _ => Finset.sum_congr rfl fun sig _ => ?_
  rw [ao_eri_tensor_swap34 mu nu sig lam]
  ring

/-! ### Claim C9: homonuclear symmetry of the one-center integrals -/

theorem alpha_pos (i : Fin 3) : 0 < alpha i := by
  fin_cases i <;> norm_num [alpha, alpha_raw, zeta]

/-- A one-center primitive ERI does not depend on where the center is. -/
theorem eri_ssss_same_center (a b c d : ℝ) (hab : a + b ≠ 0) (hcd : c + d ≠ 0)
    (X Y : V3) : eri_ssss a b c d X X X X = eri_ssss a b c d Y Y Y Y := by
  simp only [eri_ssss]
  have hdist : ∀ Z : V3, dist2 Z Z = 0 := by intro Z; simp [dist2]
  have hPQ : ∀ Z : V3,
      dist2 (fun i => (a * Z i + b * Z i) / (a + b))
        (fun i => (c * Z i + d * Z i) / (c + d)) = 0 := by
    intro Z
    rw [dist2]
    apply Finset.sum_eq_zero
    intro i _
    have e1 : (a * Z i + b * Z i) / (a + b) = Z i := by field_simp; ring
    have e2 : (c * Z i + d * Z i) / (c + d) = Z i := by field_simp; ring
    rw [e1, e2]; ring
  rw [hdist X, hdist Y, hPQ X, hPQ Y]

/-- C9.  For the homonuclear diatomic with identical contracted AOs on the
two centers, `(AA|AA) = (BB|BB)` exactly. -/
theorem eri_AAAA_eq_eri_BBBB : eri_AAAA = eri_BBBB := by
  rw [eri_AAAA, eri_BBBB, ao_eri_eq_sum, ao_eri_eq_sum]
  refine Finset.sum_congr rfl fun i _ => Finset.sum_congr rfl fun j _ =>
    Finset.sum_congr rfl fun k _ => Finset.sum_congr rfl fun l _ => ?_
  congr 1
  exact eri_ssss_same_center _ _ _ _
    (ne_of_gt (add_pos (alpha_pos i) (alpha_pos j)))
    (ne_of_gt (add_pos (alpha_pos k) (alpha_pos l))) A B

/-! ### Claim C5: the FCI ground state lies strictly below Hartree-Fock -/

/-- A 2×2 CI ground-state eigenvalue is strictly below the first diagonal
entry whenever the off-diagonal coupling is nonzero. -/
theorem fci_ground_lt_diag (d0 d1 K : ℝ) (hK : K ≠ 0) : fci_ground d0 d1 K < d0 := by
  rw [fci_ground]
  set D := (d0 - d1) / 2.0 with hD
  have hK2 : 0 < K ^ 2 := lt_of_le_of_ne (sq_nonneg K) (Ne.symm (pow_ne_zero 2 hK))
  have h1 : Real.sqrt (D ^ 2) < Real.sqrt (D ^ 2 + K ^ 2) :=
    Real.sqrt_lt_sqrt (sq_nonneg D) (by linarith)
  have h2 : Real.sqrt (D ^ 2) = |D| := Real.sqrt_sq_eq_abs D
  have h3 : -D ≤ |D| := neg_le_abs D
  have h4 : (d0 + d1) / 2.0 = d0 - D := by rw [hD]; ring
  rw [h4]
  linarith

/-! The claim theorem for C5 (`fci_total_strictly_below_hf`) is stated after
the overlap bounds of claim C8: it needs `0 < S_AB < 1` to normalize the MOs
and a strict Boys-function bound to show that the engine's exchange coupling
`off_diag` is itself strictly positive. -/

/-! ### Claim C6: analytic properties of the Boys function -/

/-- On the closed-form branch the Boys function is
`∫₀¹ exp(-T·t²) dt` (substituting `s = √T·t` in the erf integral). -/
theorem boys_F0_eq_integral (T : ℝ) (hT : 1e-15 ≤ T) :
    boys_F0 T = ∫ t in (0:ℝ)..1, Real.exp (-(T * t ^ 2)) := by
  have hT0 : (0:ℝ) < T := lt_of_lt_of_le (by norm_num) hT
  rw [boys_F0, if_neg (not_lt.mpr hT), erf]
  have h1 : Real.sqrt (π / T) = Real.sqrt π / Real.sqrt T := Real.sqrt_div pi_pos.le T
  have hπ : Real.sqrt π ≠ 0 := ne_of_gt (Real.sqrt_pos.mpr pi_pos)
  have hsT : Real.sqrt T ≠ 0 := ne_of_gt (Real.sqrt_pos.mpr hT0)
  have hcomp : ∀ x : ℝ, Real.exp (-(Real.sqrt T * x) ^ 2) = Real.exp (-(T * x ^ 2)) := by
    intro x; congr 1; rw [mul_pow, Real.sq_sqrt hT0.le]
  have hsub := intervalIntegral.integral_comp_mul_left
    (a := (0:ℝ)) (b := 1) (fun s => Real.exp (-(s ^ 2))) hsT
  simp only [mul_zero, mul_one, smul_eq_mul] at hsub
  have h2 : (∫ x in (0:ℝ)..1, Real.exp (-(T * x ^ 2))) =
      (Real.sqrt T)⁻¹ * ∫ x in (0:ℝ)..Real.sqrt T, Real.exp (-(x ^ 2)) := by
    rw [← hsub]
    apply intervalIntegral.integral_congr
    intro x _
    exact (hcomp x).symm
  rw [h2, h1]
  field_simp
  ring

/-- C6 counterexample.  The code's Boys function is not strictly decreasing
on all of `T > 0`: it is constantly `1` on the tolerance branch, e.g. at
`T = 1e-16` and `T = 2e-16`. -/
theorem boys_F0_not_strictAntiOn_pos : ¬ StrictAntiOn boys_F0 (Set.Ioi (0:ℝ)) := by
  intro h
  have h1 : boys_F0 1e-16 = 1 := by rw [boys_F0, if_pos (by norm_num)]; norm_num
  have h2 : boys_F0 2e-16 = 1 := by rw [boys_F0, if_pos (by norm_num)]; norm_num
  have h3 := h (Set.mem_Ioi.mpr (by norm_num)) (Set.mem_Ioi.mpr (by norm_num))
    (by norm_num : (1e-16:ℝ) < 2e-16)
  rw [h1, h2] at h3
  exact lt_irrefl 1 h3

/-- C6 (amended).  The Boys function is positive for every `T > 0`; it is
strictly decreasing on the closed-form branch `T ≥ 1e-15` (on `(0, 1e-15)`
it is the constant `1`); and on that branch it equals the closed form
`0.5·√(π/T)·erf(√T)` exactly, hence to at least `1e-12` relative error. -/
theorem boys_F0_amended :
    (∀ T : ℝ, 0 < T → 0 < boys_F0 T) ∧
    StrictAntiOn boys_F0 (Set.Ici (1e-15 : ℝ)) ∧
    (∀ T : ℝ, 1e-15 ≤ T →
      boys_F0 T = 0.5 * Real.sqrt (π / T) * erf (Real.sqrt T) ∧
      |boys_F0 T - 0.5 * Real.sqrt (π / T) * erf (Real.sqrt T)| ≤
        1e-12 * |0.5 * Real.sqrt (π / T) * erf (Real.sqrt T)|) := by
  refine ⟨fun T hT => ?_, ?_, fun T hT => ?_⟩
  · by_cases h : T < 1e-15
    · rw [boys_F0, if_pos h]; norm_num
    · rw [boys_F0_eq_integral T (not_lt.mp h)]
      apply intervalIntegral.intervalIntegral_pos_of_pos_on
      · exact Continuous.intervalIntegrable (by fun_prop) 0 1
      · intro x _; exact Real.exp_pos _
      · exact zero_lt_one
  · intro a ha b hb hab
    rw [Set.mem_Ici] at ha hb
    rw [boys_F0_eq_integral a ha, boys_F0_eq_integral b hb]
    apply intervalIntegral.integral_lt_integral_of_continuousOn_of_le_of_exists_lt
      zero_lt_one
    · exact Continuous.continuousOn (by fun_prop)
    · exact Continuous.continuousOn (by fun_prop)
    · intro x _
      apply Real.exp_le_exp.mpr
      have : a * x ^ 2 ≤ b * x ^ 2 := mul_le_mul_of_nonneg_right hab.le (sq_nonneg x)
      linarith
    · refine ⟨1, by norm_num, ?_⟩
      apply Real.exp_lt_exp.mpr
      nlinarith
  · have heq : boys_F0 T = 0.5 * Real.sqrt (π / T) * erf (Real.sqrt T) := by
      rw [boys_F0, if_neg (not_lt.mpr hT)]
    refine ⟨heq, ?_⟩
    rw [heq, sub_self, abs_zero]
    positivity

/-- Witness for C6 (amended) at the concrete inputs `T = 1` and `T = 2`. -/
theorem boys_F0_amended_witness :
    0 < boys_F0 1 ∧ boys_F0 2 < boys_F0 1 ∧
    boys_F0 1 = 0.5 * Real.sqrt (π / 1) * erf (Real.sqrt 1) :=
  ⟨boys_F0_amended.1 1 one_pos,
   boys_F0_amended.2.1 (Set.mem_Ici.mpr (by norm_num)) (Set.mem_Ici.mpr (by norm_num))
     one_lt_two,
   (boys_F0_amended.2.2 1 (by norm_num)).1⟩

/-! ### Claim C8: bounds and limits of the contracted overlap -/

theorem dist2_A_Bvec (R : ℝ) : dist2 A (Bvec R) = R ^ 2 := by
  rw [dist2, Fin.sum_univ_three]
  simp [A, Bvec]
  ring

/-- Closed form of the primitive overlap between the two atoms at
distance `R`. -/
theorem overlap_closed (a b R : ℝ) :
    overlap_1d a b A (Bvec R) =
      (π / (a + b)) ^ (1.5 : ℝ) * Real.exp (-(a * b / (a + b) * R ^ 2)) := by
  rw [overlap_1d, dist2_A_Bvec]

theorem d_raw_pos (i : Fin 3) : 0 < d_raw i := by
  fin_cases i <;> norm_num [d_raw]

theorem norm_pos {a : ℝ} (ha : 0 < a) : 0 < norm a :=
  Real.rpow_pos_of_pos (by rw [div_pos_iff]; left; constructor <;> positivity) _

theorem coeff_pos (i : Fin 3) : 0 < coeff i :=
  mul_pos (d_raw_pos i) (norm_pos (alpha_pos i))

/-- The primitive-normalization factors of a pair cancel the `π` powers:
`(2a/π)^¾·(2b/π)^¾·(π/(a+b))^³ᐟ² = (4ab)^¾/(a+b)^³ᐟ²`. -/
theorem norm_pair_cancel {a b : ℝ} (ha : 0 < a) (hb : 0 < b) :
    (2.0 * a / π) ^ (0.75 : ℝ) * ((2.0 * b / π) ^ (0.75 : ℝ)) *
      ((π / (a + b)) ^ (1.5 : ℝ)) =
    (4 * (a * b)) ^ (0.75 : ℝ) / (a + b) ^ (1.5 : ℝ) := by
  have hπ : (0:ℝ) < π := pi_pos
  rw [Real.div_rpow (by positivity) hπ.le, Real.div_rpow (by positivity) hπ.le,
    Real.div_rpow hπ.le (by positivity)]
  rw [div_mul_div_comm, div_mul_div_comm]
  have h4 : (2.0 * a) ^ (0.75:ℝ) * (2.0 * b) ^ (0.75:ℝ) = (4 * (a * b)) ^ (0.75:ℝ) := by
    rw [← Real.mul_rpow (by positivity) (by positivity)]
    congr 1
    ring
  have h5 : π ^ (0.75:ℝ) * π ^ (0.75:ℝ) = π ^ (1.5:ℝ) := by
    rw [← Real.rpow_add hπ]
    norm_num
  rw [h4, h5, mul_comm ((4 * (a * b)) ^ (0.75:ℝ)) (π ^ (1.5:ℝ)),
    mul_div_mul_left _ _ (ne_of_gt (Real.rpow_pos_of_pos hπ _))]

/-- The diagonal pair contributes exactly `1`: `(4a²)^¾/(2a)^³ᐟ² = 1`. -/
theorem diag_pair_eq_one {a : ℝ} (ha : 0 < a) :
    (4 * (a * a)) ^ (0.75 : ℝ) / (a + a) ^ (1.5 : ℝ) = 1 := by
  have h1 : (4:ℝ) * (a * a) = (2 * a) ^ (2:ℕ) := by ring
  have h2 : a + a = 2 * a := by ring
  rw [h1, h2, ← Real.rpow_natCast (2 * a) 2, ← Real.rpow_mul (by positivity)]
  norm_num
  exact div_self (ne_of_gt (Real.rpow_pos_of_pos (by positivity) _))

/-- Bound `x^(3/4) ≤ u` reduces to the rational inequality `x³ ≤ u⁴`. -/
theorem rpow_three_quarters_le {x u : ℝ} (hx : 0 ≤ x) (hu : 0 ≤ u)
    (h : x ^ (3:ℕ) ≤ u ^ (4:ℕ)) : x ^ (0.75 : ℝ) ≤ u := by
  have key : (x ^ (0.75:ℝ)) ^ (4:ℕ) = x ^ (3:ℕ) := by
    rw [← Real.rpow_natCast (x ^ (0.75:ℝ)) 4, ← Real.rpow_mul hx]
    norm_num
    rw [show (3:ℝ) = ((3:ℕ):ℝ) from by norm_num, Real.rpow_natCast]
  apply le_of_pow_le_pow_left₀ (by norm_num : (4:ℕ) ≠ 0) hu
  rw [key]
  exact h

/-- Bound `l ≤ g^(3/2)` reduces to the rational inequality `l² ≤ g³`. -/
theorem le_rpow_three_halves {g l : ℝ} (hg : 0 ≤ g)
    (h : l ^ (2:ℕ) ≤ g ^ (3:ℕ)) : l ≤ g ^ (1.5 : ℝ) := by
  have key : (g ^ (1.5:ℝ)) ^ (2:ℕ) = g ^ (3:ℕ) := by
    rw [← Real.rpow_natCast (g ^ (1.5:ℝ)) 2, ← Real.rpow_mul hg]
    norm_num
    rw [show (3:ℝ) = ((3:ℕ):ℝ) from by norm_num, Real.rpow_natCast]
  apply le_of_pow_le_pow_left₀ two_ne_zero (Real.rpow_nonneg hg _)
  rw [key]
  exact h

theorem S_fun_pos (R : ℝ) : 0 < S_fun R := by
  rw [S_fun]
  apply Finset.sum_pos _ Finset.univ_nonempty
  intro i _
  apply Finset.sum_pos _ Finset.univ_nonempty
  intro j _
  rw [overlap_closed]
  have h1 : (0:ℝ) < (π / (alpha i + alpha j)) ^ (1.5:ℝ) :=
    Real.rpow_pos_of_pos (div_pos pi_pos (add_pos (alpha_pos i) (alpha_pos j))) _
  have h2 := Real.exp_pos (-(alpha i * alpha j / (alpha i + alpha j) * R ^ 2))
  exact mul_pos (mul_pos (coeff_pos i) (coeff_pos j)) (mul_pos h1 h2)

/-- For a strictly positive distance the overlap is strictly below its
value at coincident centers. -/
theorem S_fun_lt_S_fun_zero {R : ℝ} (hR : 0 < R) : S_fun R < S_fun 0 := by
  rw [S_fun, S_fun]
  apply Finset.sum_lt_sum_of_nonempty Finset.univ_nonempty
  intro i _
  apply Finset.sum_lt_sum_of_nonempty Finset.univ_nonempty
  intro j _
  rw [overlap_closed, overlap_closed]
  have hγ : (0:ℝ) < alpha i + alpha j := add_pos (alpha_pos i) (alpha_pos j)
  have hμ : (0:ℝ) < alpha i * alpha j / (alpha i + alpha j) :=
    div_pos (mul_pos (alpha_pos i) (alpha_pos j)) hγ
  have h1 : (0:ℝ) < (π / (alpha i + alpha j)) ^ (1.5:ℝ) :=
    Real.rpow_pos_of_pos (div_pos pi_pos hγ) _
  have hexp : Real.exp (-(alpha i * alpha j / (alpha i + alpha j) * R ^ 2)) <
      Real.exp (-(alpha i * alpha j / (alpha i + alpha j) * (0:ℝ) ^ 2)) := by
    apply Real.exp_lt_exp.mpr
    have : 0 < alpha i * alpha j / (alpha i + alpha j) * R ^ 2 :=
      mul_pos hμ (by positivity)
    nlinarith
  have hcc : 0 < coeff i * coeff j := mul_pos (coeff_pos i) (coeff_pos j)
  calc coeff i * coeff j *
        ((π / (alpha i + alpha j)) ^ (1.5:ℝ) *
          Real.exp (-(alpha i * alpha j / (alpha i + alpha j) * R ^ 2)))
      < coeff i * coeff j *
        ((π / (alpha i + alpha j)) ^ (1.5:ℝ) *
          Real.exp (-(alpha i * alpha j / (alpha i + alpha j) * (0:ℝ) ^ 2))) := by
        apply mul_lt_mul_of_pos_left _ hcc
        exact mul_lt_mul_of_pos_left hexp h1
    _ = coeff i * coeff j *
        ((π / (alpha i + alpha j)) ^ (1.5:ℝ) *
          Real.exp (-(alpha i * alpha j / (alpha i + alpha j) * (0:ℝ) ^ 2))) := rfl

/-- Numeric values of the scaled exponents. -/
theorem alpha_val :
    alpha 0 = (3.42525091 : ℝ) ∧ alpha 1 = (0.62391373 : ℝ) ∧
    alpha 2 = (0.16885540 : ℝ) := by
  refine ⟨?_, ?_, ?_⟩ <;> norm_num [alpha, alpha_raw, zeta]

theorem d_raw_val :
    d_raw 0 = (0.15432897 : ℝ) ∧ d_raw 1 = (0.53532814 : ℝ) ∧
    d_raw 2 = (0.44463454 : ℝ) := by
  refine ⟨?_, ?_, ?_⟩ <;> norm_num [d_raw]

/-- The engine's contracted AO self-overlap is strictly below `1` (the
tabulated STO-3G coefficients normalize the contracted function only to
about `1 - 9.1·10⁻⁹`). -/
theorem S_fun_zero_lt_one : S_fun 0 < 1 := by
  have hterm : ∀ i j : Fin 3,
      coeff i * coeff j * overlap_1d (alpha i) (alpha j) A (Bvec 0) =
      d_raw i * d_raw j *
        ((4 * (alpha i * alpha j)) ^ (0.75:ℝ) / (alpha i + alpha j) ^ (1.5:ℝ)) := by
    intro i j
    rw [overlap_closed]
    have : Real.exp (-(alpha i * alpha j / (alpha i + alpha j) * (0:ℝ) ^ 2)) = 1 := by
      norm_num
    rw [this, mul_one, coeff, coeff, norm, norm]
    rw [show d_raw i * (2.0 * alpha i / π) ^ (0.75:ℝ) *
          (d_raw j * (2.0 * alpha j / π) ^ (0.75:ℝ)) *
          (π / (alpha i + alpha j)) ^ (1.5:ℝ) =
        d_raw i * d_raw j *
          ((2.0 * alpha i / π) ^ (0.75:ℝ) * ((2.0 * alpha j / π) ^ (0.75:ℝ)) *
            ((π / (alpha i + alpha j)) ^ (1.5:ℝ))) from by ring]
    rw [norm_pair_cancel (alpha_pos i) (alpha_pos j)]
  have hS : S_fun 0 = ∑ i : Fin 3, ∑ j : Fin 3,
      d_raw i * d_raw j *
        ((4 * (alpha i * alpha j)) ^ (0.75:ℝ) / (alpha i + alpha j) ^ (1.5:ℝ)) := by
    rw [S_fun]
    exact Finset.sum_congr rfl fun i _ => Finset.sum_congr rfl fun j _ => hterm i j
  rw [hS]
  simp only [Fin.sum_univ_three]
  rw [alpha_val.1, alpha_val.2.1, alpha_val.2.2, d_raw_val.1, d_raw_val.2.1,
    d_raw_val.2.2]
  rw [diag_pair_eq_one (by norm_num : (0:ℝ) < 3.42525091),
    diag_pair_eq_one (by norm_num : (0:ℝ) < 0.62391373),
    diag_pair_eq_one (by norm_num : (0:ℝ) < 0.16885540)]
  have hY01 : (4 * ((3.42525091:ℝ) * 0.62391373)) ^ (0.75:ℝ) /
      ((3.42525091:ℝ) + 0.62391373) ^ (1.5:ℝ) ≤ 4.9992826712 / 8.1479462136 := by
    apply div_le_div₀ (by norm_num)
      (rpow_three_quarters_le (by norm_num) (by norm_num) (by norm_num))
      (by norm_num)
      (le_rpow_three_halves (by norm_num) (by norm_num))
  have hY10 : (4 * ((0.62391373:ℝ) * 3.42525091)) ^ (0.75:ℝ) /
      ((0.62391373:ℝ) + 3.42525091) ^ (1.5:ℝ) ≤ 4.9992826712 / 8.1479462136 := by
    apply div_le_div₀ (by norm_num)
      (rpow_three_quarters_le (by norm_num) (by norm_num) (by norm_num))
      (by norm_num)
      (le_rpow_three_halves (by norm_num) (by norm_num))
  have hY02 : (4 * ((3.42525091:ℝ) * 0.16885540)) ^ (0.75:ℝ) /
      ((3.42525091:ℝ) + 0.16885540) ^ (1.5:ℝ) ≤ 1.8758603410 / 6.8137528772 := by
    apply div_le_div₀ (by norm_num)
      (rpow_three_quarters_le (by norm_num) (by norm_num) (by norm_num))
      (by norm_num)
      (le_rpow_three_halves (by norm_num) (by norm_num))
  have hY20 : (4 * ((0.16885540:ℝ) * 3.42525091)) ^ (0.75:ℝ) /
      ((0.16885540:ℝ) + 3.42525091) ^ (1.5:ℝ) ≤ 1.8758603410 / 6.8137528772 := by
    apply div_le_div₀ (by norm_num)
      (rpow_three_quarters_le (by norm_num) (by norm_num) (by norm_num))
      (by norm_num)
      (le_rpow_three_halves (by norm_num) (by norm_num))
  have hY12 : (4 * ((0.62391373:ℝ) * 0.16885540)) ^ (0.75:ℝ) /
      ((0.62391373:ℝ) + 0.16885540) ^ (1.5:ℝ) ≤ 0.5230276110 / 0.7058624771 := by
    apply div_le_div₀ (by norm_num)
      (rpow_three_quarters_le (by norm_num) (by norm_num) (by norm_num))
      (by norm_num)
      (le_rpow_three_halves (by norm_num) (by norm_num))
  have hY21 : (4 * ((0.16885540:ℝ) * 0.62391373)) ^ (0.75:ℝ) /
      ((0.16885540:ℝ) + 0.62391373) ^ (1.5:ℝ) ≤ 0.5230276110 / 0.7058624771 := by
    apply div_le_div₀ (by norm_num)
      (rpow_three_quarters_le (by norm_num) (by norm_num) (by norm_num))
      (by norm_num)
      (le_rpow_three_halves (by norm_num) (by norm_num))
  nlinarith [hY01, hY10, hY02, hY20, hY12, hY21]

/-- Function `S_fun` written with the closed-form integrand. -/
theorem S_fun_eq_closed : S_fun = fun R : ℝ =>
    ∑ i : Fin 3, ∑ j : Fin 3,
      coeff i * coeff j *
        ((π / (alpha i + alpha j)) ^ (1.5:ℝ) *
          Real.exp (-(alpha i * alpha j / (alpha i + alpha j) * R ^ 2))) := by
  funext R
  rw [S_fun]
  exact Finset.sum_congr rfl fun i _ => Finset.sum_congr rfl fun j _ => by
    rw [overlap_closed]

/-- The engine's `S_AB` is the overlap function at the engine's bond length. -/
theorem S_AB_eq_S_fun : S_AB = S_fun R_bohr := by
  rw [S_AB_eq_sum, S_fun]
  rfl

theorem R_bohr_pos : 0 < R_bohr := by
  rw [R_bohr, R_angstrom, bohr_from_Vnn, R_angstrom]
  positivity

/-- The overlap function tends to `0` at infinite separation. -/
theorem S_fun_tendsto_atTop : Tendsto S_fun atTop (𝓝 0) := by
  rw [S_fun_eq_closed]
  have h : Tendsto (fun R : ℝ =>
      ∑ i : Fin 3, ∑ j : Fin 3,
        coeff i * coeff j *
          ((π / (alpha i + alpha j)) ^ (1.5:ℝ) *
            Real.exp (-(alpha i * alpha j / (alpha i + alpha j) * R ^ 2))))
      atTop (𝓝 (∑ _i : Fin 3, ∑ _j : Fin 3, (0:ℝ))) := by
    apply tendsto_finset_sum
    intro i _
    apply tendsto_finset_sum
    intro j _
    have hμ : (0:ℝ) < alpha i * alpha j / (alpha i + alpha j) :=
      div_pos (mul_pos (alpha_pos i) (alpha_pos j))
        (add_pos (alpha_pos i) (alpha_pos j))
    have hexp : Tendsto (fun R : ℝ =>
        Real.exp (-(alpha i * alpha j / (alpha i + alpha j) * R ^ 2)))
        atTop (𝓝 0) := by
      have h1 : Tendsto (fun R : ℝ => R ^ 2) atTop atTop :=
        tendsto_pow_atTop two_ne_zero
      have h2 : Tendsto (fun R : ℝ =>
          alpha i * alpha j / (alpha i + alpha j) * R ^ 2) atTop atTop :=
        h1.const_mul_atTop hμ
      have h3 : Tendsto (fun R : ℝ =>
          -(alpha i * alpha j / (alpha i + alpha j) * R ^ 2)) atTop atBot :=
        tendsto_neg_atTop_atBot.comp h2
      exact Real.tendsto_exp_atBot.comp h3
    have := (hexp.const_mul ((π / (alpha i + alpha j)) ^ (1.5:ℝ))).const_mul
      (coeff i * coeff j)
    simpa [mul_assoc] using this
  simpa using h

/-- The overlap function is continuous, so it tends to the self-overlap
value `S_fun 0` as the distance tends to `0` from above. -/
theorem S_fun_tendsto_self_overlap : Tendsto S_fun (𝓝[>] (0:ℝ)) (𝓝 (S_fun 0)) := by
  have hcont : Continuous S_fun := by
    rw [S_fun_eq_closed]
    apply continuous_finset_sum
    intro i _
    apply continuous_finset_sum
    intro j _
    fun_prop
  exact (hcont.tendsto 0).mono_left nhdsWithin_le_nhds

/-- C8 counterexample.  Over exact real arithmetic the overlap does NOT
tend to `1` as the distance tends to `0`: its limit is the contracted
self-overlap `S_fun 0 ≈ 1 - 9.1·10⁻⁹ < 1`, because the tabulated STO-3G
contraction coefficients normalize the AO only approximately. -/
theorem S_fun_not_tendsto_one : ¬ Tendsto S_fun (𝓝[>] (0:ℝ)) (𝓝 1) := by
  intro h
  have h2 := S_fun_tendsto_self_overlap
  have h3 : (1:ℝ) = S_fun 0 := tendsto_nhds_unique h h2
  have h4 := S_fun_zero_lt_one
  rw [← h3] at h4
  exact lt_irrefl 1 h4

/-- C8 (amended).  For every positive distance the contracted overlap lies
strictly between `0` and `1` (in particular the engine's `S_AB` does);
as the distance tends to `0` it tends to the contracted self-overlap
`S_fun 0` (which is `< 1`, not exactly `1`), and it tends to `0` as the
distance tends to infinity. -/
theorem overlap_bounds_and_limits :
    (∀ R : ℝ, 0 < R → 0 < S_fun R ∧ S_fun R < 1) ∧
    (0 < S_AB ∧ S_AB < 1) ∧
    Tendsto S_fun (𝓝[>] (0:ℝ)) (𝓝 (S_fun 0)) ∧
    Tendsto S_fun atTop (𝓝 0) := by
  have key : ∀ R : ℝ, 0 < R → 0 < S_fun R ∧ S_fun R < 1 := fun R hR =>
    ⟨S_fun_pos R, lt_trans (S_fun_lt_S_fun_zero hR) S_fun_zero_lt_one⟩
  refine ⟨key, ?_, S_fun_tendsto_self_overlap, S_fun_tendsto_atTop⟩
  rw [S_AB_eq_S_fun]
  exact key R_bohr R_bohr_pos

/-- Witness for C8 (amended) at the concrete distance `R = 1`. -/
theorem overlap_bounds_and_limits_witness :
    (0:ℝ) < 1 ∧ 0 < S_fun 1 ∧ S_fun 1 < 1 :=
  ⟨one_pos, (overlap_bounds_and_limits.1 1 one_pos).1,
    (overlap_bounds_and_limits.1 1 one_pos).2⟩

/-! ### Claim C5: the FCI total lies strictly below the HF total

The key fact is that the engine's exchange coupling `off_diag = mo_eri 0 1 0 1`
is strictly positive.  Using the permutation symmetries of the primitive ERI
(swap of either electron pair's two primitives, exchange of the two electron
pairs) and the point reflection that exchanges the two atoms, the sixteen AO
tensor entries collapse and `off_diag = 2·norm_g²·norm_u²·((AA|AA) - (AA|BB))`.
The difference `(AA|AA) - (AA|BB)` is strictly positive termwise: each pair of
primitive integrals shares its prefactor, the one-center one carries the Boys
value `F₀(0) = 1` and the two-center one carries `F₀(T) < 1` with
`T ≥ 0.168·R_bohr² ≥ 1e-15`. -/

theorem A_coord (i : Fin 3) : A i = 0 := by
  fin_cases i <;> norm_num [A]

theorem dist2_self (X : V3) : dist2 X X = 0 := by simp [dist2]

theorem dist2_A_B : dist2 A B = R_bohr ^ 2 := dist2_A_Bvec R_bohr

/-- On the closed-form branch the Boys function is strictly below `1`:
its integrand `exp(-T·t²)` is `≤ 1` and drops below `1` at `t = 1`. -/
theorem boys_F0_lt_one (T : ℝ) (hT : (1e-15:ℝ) ≤ T) : boys_F0 T < 1 := by
  have hT0 : (0:ℝ) < T := lt_of_lt_of_le (by norm_num) hT
  rw [boys_F0_eq_integral T hT]
  calc (∫ t in (0:ℝ)..1, Real.exp (-(T * t ^ 2)))
      < ∫ t in (0:ℝ)..1, (1:ℝ) := by
        apply intervalIntegral.integral_lt_integral_of_continuousOn_of_le_of_exists_lt
          zero_lt_one
        · exact Continuous.continuousOn (by fun_prop)
        · exact Continuous.continuousOn (by fun_prop)
        · intro x _
          have h := Real.exp_le_exp.mpr
            (show -(T * x ^ 2) ≤ 0 by nlinarith [sq_nonneg x])
          simpa using h
        · refine ⟨1, by norm_num, ?_⟩
          have h := Real.exp_lt_exp.mpr (show -(T * (1:ℝ) ^ 2) < 0 by nlinarith)
          simpa using h
    _ = 1 := by simp

theorem alpha_ge (i : Fin 3) : (0.16885540:ℝ) ≤ alpha i := by
  fin_cases i <;> norm_num [alpha, alpha_raw, zeta]

/-- One-center primitive ERI in closed form: the Boys argument and both
Gaussian exponents vanish, so only the prefactor survives. -/
theorem eri_ssss_AAAA_val (a b c d : ℝ) :
    eri_ssss a b c d A A A A =
      2.0 * π ^ (2.5 : ℝ) / ((a + b) * (c + d) * Real.sqrt (a + b + (c + d))) := by
  simp only [eri_ssss]
  have hPQ : dist2 (fun i => (a * A i + b * A i) / (a + b))
      (fun i => (c * A i + d * A i) / (c + d)) = 0 := by
    rw [dist2]
    apply Finset.sum_eq_zero
    intro i _
    rw [A_coord i]
    ring
  rw [hPQ, dist2_self A]
  have hb : boys_F0 ((a + b) * (c + d) / (a + b + (c + d)) * 0) = 1 := by
    rw [mul_zero, boys_F0, if_pos (by norm_num : (0:ℝ) < 1e-15)]
    norm_num
  rw [hb]
  norm_num

/-- Two-center primitive ERI `(ab on A | cd on B)` in closed form: the same
prefactor, now multiplied by the Boys value at `T = α_pq·R_bohr²`. -/
theorem eri_ssss_AABB_val (a b c d : ℝ) (hcd : c + d ≠ 0) :
    eri_ssss a b c d A A B B =
      2.0 * π ^ (2.5 : ℝ) / ((a + b) * (c + d) * Real.sqrt (a + b + (c + d))) *
        boys_F0 ((a + b) * (c + d) / (a + b + (c + d)) * R_bohr ^ 2) := by
  simp only [eri_ssss]
  have h1 : (fun i => (a * A i + b * A i) / (a + b)) = A := by
    funext i
    show (a * A i + b * A i) / (a + b) = A i
    rw [A_coord i]
    simp
  have h2 : (fun i => (c * B i + d * B i) / (c + d)) = B := by
    funext i
    show (c * B i + d * B i) / (c + d) = B i
    field_simp
    ring
  rw [h1, h2, dist2_A_B, dist2_self A, dist2_self B]
  norm_num

/-- Termwise strict comparison: for exponents at least the smallest STO-3G
exponent, the two-center primitive Coulomb repulsion is strictly below the
one-center one. -/
theorem eri_ssss_AABB_lt_AAAA (a b c d : ℝ)
    (ha : (0.16885540:ℝ) ≤ a) (hb : (0.16885540:ℝ) ≤ b)
    (hc : (0.16885540:ℝ) ≤ c) (hd : (0.16885540:ℝ) ≤ d) :
    eri_ssss a b c d A A B B < eri_ssss a b c d A A A A := by
  have hl : (0:ℝ) < 0.16885540 := by norm_num
  have ha0 : (0:ℝ) < a := lt_of_lt_of_le hl ha
  have hb0 : (0:ℝ) < b := lt_of_lt_of_le hl hb
  have hc0 : (0:ℝ) < c := lt_of_lt_of_le hl hc
  have hd0 : (0:ℝ) < d := lt_of_lt_of_le hl hd
  have hab : (0:ℝ) < a + b := by linarith
  have hcd : (0:ℝ) < c + d := by linarith
  rw [eri_ssss_AAAA_val a b c d, eri_ssss_AABB_val a b c d (ne_of_gt hcd)]
  have hpref : (0:ℝ) <
      2.0 * π ^ (2.5:ℝ) / ((a + b) * (c + d) * Real.sqrt (a + b + (c + d))) := by
    apply div_pos
    · positivity
    · exact mul_pos (mul_pos hab hcd) (Real.sqrt_pos.mpr (by linarith))
  have hR1 : (1:ℝ) ≤ R_bohr := by
    rw [R_bohr, R_angstrom, bohr_from_Vnn, R_angstrom]
    norm_num
  have hT : (1e-15:ℝ) ≤ (a + b) * (c + d) / (a + b + (c + d)) * R_bohr ^ 2 := by
    have hkey : (0.16885540:ℝ) * 0.16885540 ≤
        (a + b - 0.16885540) * (c + d - 0.16885540) :=
      mul_le_mul (by linarith) (by linarith) hl.le (by linarith)
    have hal : (0.16885540:ℝ) ≤ (a + b) * (c + d) / (a + b + (c + d)) := by
      rw [le_div_iff₀ (by linarith)]
      nlinarith [hkey]
    have hR2 : (1:ℝ) ≤ R_bohr ^ 2 := by nlinarith
    nlinarith [mul_le_mul hal hR2 (by norm_num) (by linarith)]
  have hF : boys_F0 ((a + b) * (c + d) / (a + b + (c + d)) * R_bohr ^ 2) < 1 :=
    boys_F0_lt_one _ hT
  simpa using mul_lt_mul_of_pos_left hF hpref

/-- The contracted two-center Coulomb integral `(AA|BB)` is strictly below
the one-center `(AA|AA)`. -/
theorem ao_eri_AABB_lt_AAAA : ao_eri A A B B < ao_eri A A A A := by
  rw [ao_eri_eq_sum, ao_eri_eq_sum]
  apply Finset.sum_lt_sum_of_nonempty Finset.univ_nonempty
  intro i _
  apply Finset.sum_lt_sum_of_nonempty Finset.univ_nonempty
  intro j _
  apply Finset.sum_lt_sum_of_nonempty Finset.univ_nonempty
  intro k _
  apply Finset.sum_lt_sum_of_nonempty Finset.univ_nonempty
  intro l _
  have hcccc : (0:ℝ) < coeff i * coeff j * coeff k * coeff l :=
    mul_pos (mul_pos (mul_pos (coeff_pos i) (coeff_pos j)) (coeff_pos k)) (coeff_pos l)
  exact mul_lt_mul_of_pos_left
    (eri_ssss_AABB_lt_AAAA (alpha i) (alpha j) (alpha k) (alpha l)
      (alpha_ge i) (alpha_ge j) (alpha_ge k) (alpha_ge l)) hcccc

/-- The primitive ERI is symmetric under exchanging the first and second
primitives together with their centers. -/
theorem eri_ssss_swap12 (a b c d : ℝ) (Ra Rb Rc Rd : V3) :
    eri_ssss a b c d Ra Rb Rc Rd = eri_ssss b a c d Rb Ra Rc Rd := by
  simp only [eri_ssss]
  have h1 : (fun i => (a * Ra i + b * Rb i) / (a + b)) =
      (fun i => (b * Rb i + a * Ra i) / (b + a)) := by
    funext i; ring_nf
  rw [h1, dist2_comm Ra Rb, show a + b = b + a from by ring,
    show a * b = b * a from by ring]

/-- The primitive ERI is symmetric under exchanging the two electron pairs. -/
theorem eri_ssss_pairswap (a b c d : ℝ) (Ra Rb Rc Rd : V3) :
    eri_ssss a b c d Ra Rb Rc Rd = eri_ssss c d a b Rc Rd Ra Rb := by
  simp only [eri_ssss]
  rw [dist2_comm (fun i => (a * Ra i + b * Rb i) / (a + b))
      (fun i => (c * Rc i + d * Rd i) / (c + d)),
    show a + b + (c + d) = c + d + (a + b) from by ring,
    show (a + b) * (c + d) = (c + d) * (a + b) from by ring]
  ring

/-- Reordering a quadruple `Fin 3` sum by exchanging the two index pairs. -/
theorem sum4_pair_comm (f : Fin 3 → Fin 3 → Fin 3 → Fin 3 → ℝ) :
    (∑ i : Fin 3, ∑ j : Fin 3, ∑ k : Fin 3, ∑ l : Fin 3, f i j k l) =
      ∑ i : Fin 3, ∑ j : Fin 3, ∑ k : Fin 3, ∑ l : Fin 3, f k l i j := by
  have s1 : (∑ i : Fin 3, ∑ j : Fin 3, ∑ k : Fin 3, ∑ l : Fin 3, f i j k l)
      = ∑ i : Fin 3, ∑ k : Fin 3, ∑ j : Fin 3, ∑ l : Fin 3, f i j k l := by
    refine Finset.sum_congr rfl fun i _ => ?_
    rw [Finset.sum_comm]
  have s2 : (∑ i : Fin 3, ∑ k : Fin 3, ∑ j : Fin 3, ∑ l : Fin 3, f i j k l)
      = ∑ k : Fin 3, ∑ i : Fin 3, ∑ j : Fin 3, ∑ l : Fin 3, f i j k l := by
    rw [Finset.sum_comm]
  have s3 : (∑ k : Fin 3, ∑ i : Fin 3, ∑ j : Fin 3, ∑ l : Fin 3, f i j k l)
      = ∑ k : Fin 3, ∑ i : Fin 3, ∑ l : Fin 3, ∑ j : Fin 3, f i j k l := by
    refine Finset.sum_congr rfl fun k _ => Finset.sum_congr rfl fun i _ => ?_
    rw [Finset.sum_comm]
  have s4 : (∑ k : Fin 3, ∑ i : Fin 3, ∑ l : Fin 3, ∑ j : Fin 3, f i j k l)
      = ∑ k : Fin 3, ∑ l : Fin 3, ∑ i : Fin 3, ∑ j : Fin 3, f i j k l := by
    refine Finset.sum_congr rfl fun k _ => ?_
    rw [Finset.sum_comm]
  rw [s1, s2, s3, s4]

/-- The loop-level AO ERI inherits the symmetry in its first two centers. -/
theorem ao_eri_swap12 (c1 c2 c3 c4 : V3) :
    ao_eri c1 c2 c3 c4 = ao_eri c2 c1 c3 c4 := by
  rw [ao_eri_eq_sum, ao_eri_eq_sum]
  rw [Finset.sum_comm]
  refine Finset.sum_congr rfl fun p _ => Finset.sum_congr rfl fun q _ =>
    Finset.sum_congr rfl fun k _ => Finset.sum_congr rfl fun l _ => ?_
  rw [eri_ssss_swap12 (alpha q) (alpha p) (alpha k) (alpha l) c1 c2 c3 c4]
  ring

/-- The loop-level AO ERI inherits the electron-pair exchange symmetry. -/
theorem ao_eri_pairswap (c1 c2 c3 c4 : V3) :
    ao_eri c1 c2 c3 c4 = ao_eri c3 c4 c1 c2 := by
  rw [ao_eri_eq_sum, ao_eri_eq_sum]
  refine (sum4_pair_comm (fun i j k l => coeff i * coeff j * coeff k * coeff l *
    eri_ssss (alpha i) (alpha j) (alpha k) (alpha l) c1 c2 c3 c4)).trans ?_
  refine Finset.sum_congr rfl fun i _ => Finset.sum_congr rfl fun j _ =>
    Finset.sum_congr rfl fun k _ => Finset.sum_congr rfl fun l _ => ?_
  show coeff k * coeff l * coeff i * coeff j *
      eri_ssss (alpha k) (alpha l) (alpha i) (alpha j) c1 c2 c3 c4 =
    coeff i * coeff j * coeff k * coeff l *
      eri_ssss (alpha i) (alpha j) (alpha k) (alpha l) c3 c4 c1 c2
  rw [eri_ssss_pairswap (alpha k) (alpha l) (alpha i) (alpha j) c1 c2 c3 c4]
  ring

theorem mirror_A : mirror A = B := by
  funext i
  show B i - A i = B i
  rw [A_coord i]
  ring

theorem mirror_B : mirror B = A := by
  funext i
  show B i - B i = A i
  rw [A_coord i]
  ring

theorem dist2_mirror (X Y : V3) : dist2 (mirror X) (mirror Y) = dist2 X Y := by
  rw [dist2, dist2]
  refine Finset.sum_congr rfl fun i _ => ?_
  show (mirror X i - mirror Y i) ^ 2 = (X i - Y i) ^ 2
  simp only [mirror]
  ring

/-- The primitive ERI is invariant under the reflection `mirror` applied to
all four centers (it preserves all squared distances). -/
theorem eri_ssss_mirror (a b c d : ℝ) (hab : a + b ≠ 0) (hcd : c + d ≠ 0)
    (Ra Rb Rc Rd : V3) :
    eri_ssss a b c d (mirror Ra) (mirror Rb) (mirror Rc) (mirror Rd) =
      eri_ssss a b c d Ra Rb Rc Rd := by
  simp only [eri_ssss]
  have h1 : (fun i => (a * mirror Ra i + b * mirror Rb i) / (a + b)) =
      mirror (fun i => (a * Ra i + b * Rb i) / (a + b)) := by
    funext i
    show (a * mirror Ra i + b * mirror Rb i) / (a + b) =
      B i - (a * Ra i + b * Rb i) / (a + b)
    simp only [mirror]
    field_simp
    ring
  have h2 : (fun i => (c * mirror Rc i + d * mirror Rd i) / (c + d)) =
      mirror (fun i => (c * Rc i + d * Rd i) / (c + d)) := by
    funext i
    show (c * mirror Rc i + d * mirror Rd i) / (c + d) =
      B i - (c * Rc i + d * Rd i) / (c + d)
    simp only [mirror]
    field_simp
    ring
  rw [h1, h2, dist2_mirror, dist2_mirror, dist2_mirror]

/-- The contracted AO ERI is invariant under the reflection of all centers. -/
theorem ao_eri_mirror (c1 c2 c3 c4 : V3) :
    ao_eri (mirror c1) (mirror c2) (mirror c3) (mirror c4) = ao_eri c1 c2 c3 c4 := by
  rw [ao_eri_eq_sum, ao_eri_eq_sum]
  refine Finset.sum_congr rfl fun i _ => Finset.sum_congr rfl fun j _ =>
    Finset.sum_congr rfl fun k _ => Finset.sum_congr rfl fun l _ => ?_
  congr 1
  exact eri_ssss_mirror _ _ _ _
    (ne_of_gt (add_pos (alpha_pos i) (alpha_pos j)))
    (ne_of_gt (add_pos (alpha_pos k) (alpha_pos l))) c1 c2 c3 c4

/-! Reduction of every AO tensor entry to one of the four representatives
`(AA|AA)`, `(AA|BB)`, `(AA|AB)`, `(AB|AB)`. -/

theorem ao_eri_AABA_eq : ao_eri A A B A = ao_eri A A A B := ao_eri_swap34 A A B A

theorem ao_eri_ABAA_eq : ao_eri A B A A = ao_eri A A A B := ao_eri_pairswap A B A A

theorem ao_eri_BAAA_eq : ao_eri B A A A = ao_eri A A A B :=
  (ao_eri_pairswap B A A A).trans ao_eri_AABA_eq

theorem ao_eri_BABA_eq : ao_eri B A B A = ao_eri A B A B :=
  (ao_eri_swap12 B A B A).trans (ao_eri_swap34 A B B A)

theorem ao_eri_BAAB_eq : ao_eri B A A B = ao_eri A B A B := ao_eri_swap12 B A A B

theorem ao_eri_ABBA_eq : ao_eri A B B A = ao_eri A B A B := ao_eri_swap34 A B B A

theorem ao_eri_BBAA_eq : ao_eri B B A A = ao_eri A A B B := ao_eri_pairswap B B A A

theorem ao_eri_BBBA_eq : ao_eri B B B A = ao_eri A A A B := by
  have h := ao_eri_mirror A A A B
  rw [mirror_A, mirror_B] at h
  exact h

theorem ao_eri_ABBB_eq : ao_eri A B B B = ao_eri A A A B := by
  have h := ao_eri_mirror B A A A
  rw [mirror_A, mirror_B] at h
  exact h.trans ao_eri_BAAA_eq

theorem ao_eri_BABB_eq : ao_eri B A B B = ao_eri A A A B := by
  have h := ao_eri_mirror A B A A
  rw [mirror_A, mirror_B] at h
  exact h.trans ao_eri_ABAA_eq

theorem ao_eri_BBAB_eq : ao_eri B B A B = ao_eri A A A B := by
  have h := ao_eri_mirror A A B A
  rw [mirror_A, mirror_B] at h
  exact h.trans ao_eri_AABA_eq

theorem ao_eri_BBBB_eq : ao_eri B B B B = ao_eri A A A A := by
  have h := ao_eri_mirror A A A A
  rw [mirror_A] at h
  exact h

theorem C_apply :
    C 0 0 = norm_g ∧ C 1 0 = norm_g ∧ C 0 1 = norm_u ∧ C 1 1 = -norm_u :=
  ⟨rfl, rfl, rfl, rfl⟩

/-- The engine's exchange coupling in closed form: expanding the sixteen-term
transform and collapsing the tensor entries by the symmetries above, the
`(AA|AB)`-type and `(AB|AB)`-type contributions cancel and
`mo_eri[0,1,0,1] = 2·norm_g²·norm_u²·((AA|AA) - (AA|BB))`. -/
theorem off_diag_eq_ao :
    off_diag = 2 * (norm_g ^ 2 * norm_u ^ 2) * (ao_eri A A A A - ao_eri A A B B) := by
  rw [off_diag, mo_eri]
  simp only [Fin.sum_univ_two]
  rw [C_apply.1, C_apply.2.1, C_apply.2.2.1, C_apply.2.2.2]
  simp only [ao_eri_tensor, centers_list, Matrix.cons_val_zero, Matrix.cons_val_one,
    Matrix.head_cons]
  rw [ao_eri_AABA_eq, ao_eri_ABAA_eq, ao_eri_BAAA_eq, ao_eri_BABA_eq,
    ao_eri_BAAB_eq, ao_eri_ABBA_eq, ao_eri_BBAA_eq, ao_eri_BBBA_eq,
    ao_eri_ABBB_eq, ao_eri_BABB_eq, ao_eri_BBAB_eq, ao_eri_BBBB_eq]
  ring

theorem S_AB_pos : 0 < S_AB := by
  rw [S_AB_eq_S_fun]
  exact S_fun_pos R_bohr

theorem S_AB_lt_one : S_AB < 1 := by
  rw [S_AB_eq_S_fun]
  exact lt_trans (S_fun_lt_S_fun_zero R_bohr_pos) S_fun_zero_lt_one

theorem norm_g_pos : 0 < norm_g := by
  rw [norm_g]
  have h := S_AB_pos
  exact div_pos (by norm_num) (Real.sqrt_pos.mpr (by linarith))

theorem norm_u_pos : 0 < norm_u := by
  rw [norm_u]
  have h := S_AB_lt_one
  exact div_pos (by norm_num) (Real.sqrt_pos.mpr (by linarith))

/-- The engine's exchange coupling `K = mo_eri[0,1,0,1]` is strictly
positive (numerically it is `≈ 0.1812`). -/
theorem off_diag_pos : 0 < off_diag := by
  rw [off_diag_eq_ao]
  exact mul_pos
    (mul_pos two_pos (mul_pos (pow_pos norm_g_pos 2) (pow_pos norm_u_pos 2)))
    (sub_pos.mpr ao_eri_AABB_lt_AAAA)

/-- C5.  The engine's FCI total energy is the 2×2 CI ground-state eigenvalue
built from `diag_00`, `diag_11` and `K = off_diag` plus `V_nn`, the HF total
energy is `diag_00 + V_nn`, and the FCI total lies strictly below the HF
total: the exchange coupling `off_diag` is strictly positive, so the square
root strictly exceeds `|diff|`. -/
theorem fci_total_strictly_below_hf :
    E_FCI_total = fci_ground diag_00 diag_11 off_diag + V_nn ∧
    E_HF_total = diag_00 + V_nn ∧
    E_FCI_total < E_HF_total := by
  have h1 : E_FCI_total = fci_ground diag_00 diag_11 off_diag + V_nn := by
    rw [E_FCI_total, E_FCI_elec, fci_ground, avg, diff]
  have h3 : E_HF_total = diag_00 + V_nn := rfl
  refine ⟨h1, h3, ?_⟩
  have h2 : fci_ground diag_00 diag_11 off_diag < diag_00 :=
    fci_ground_lt_diag diag_00 diag_11 off_diag (ne_of_gt off_diag_pos)
  rw [h1, h3]
  linarith

end ComputeK01

/-! Part 2: `scripts/inject_pages_runtime.py`

Strings are modelled as `List Char`.  `str.replace` is the leftmost,
non-overlapping replace-all; `in` is the substring test; `str.find` is the
index of the first occurrence; `str.lower` maps `Char.toLower`.
`inject_runtime` returns the final file content together with the boolean
the python function returns (the file is written exactly with that
content).
-/

namespace InjectPagesRuntime

/-- Python's `content.replace(p, v)`: replace every occurrence of `p`
leftmost-first and non-overlapping. -/
def replaceAll (p v : List Char) : List Char → List Char
  | [] => []
  | c :: rest =>
    if p.isPrefixOf (c :: rest)
    then v ++ replaceAll p v (rest.drop (p.length - 1))
    else c :: replaceAll p v rest
  termination_by s => s.length
  decreasing_by
  · simp only [List.length_drop, List.length_cons]
    omega
  · simp only [List.length_cons]
    omega

theorem replaceAll_nil (p v : List Char) : replaceAll p v [] = [] := by
  rw [replaceAll]

theorem replaceAll_cons (p v : List Char) (c : Char) (rest : List Char) :
    replaceAll p v (c :: rest) =
      if p.isPrefixOf (c :: rest)
      then v ++ replaceAll p v (rest.drop (p.length - 1))
      else c :: replaceAll p v rest := by
  rw [replaceAll]

/-- Python's `content.find(pat)` (as `Option` instead of `-1`). -/
def findSub (pat : List Char) : List Char → Option Nat
  | [] => none
  | c :: rest =>
    if pat.isPrefixOf (c :: rest) then some 0
    else (findSub pat rest).map (· + 1)

/-- Python's `content.lower()` (ASCII-level model). -/
def lowerL (s : List Char) : List Char := s.map Char.toLower

/-- Constant `RUNTIME_MARKER`. -/
def RUNTIME_MARKER : String := "<!-- fockmap-pages-runtime -->"

/-- Lines 2..31 of the snippet literal. -/
def SNIPPET_TAIL : String :=
  "    <script>\n" ++
  "      window.MathJax = \x7b\n" ++
  "        tex: \x7b\n" ++
  "          inlineMath: [['$', '$'], ['\\(', '\\)']],\n" ++
  "          displayMath: [['$$', '$$'], ['\\[', '\\]']],\n" ++
  "          processEscapes: true\n" ++
  "        \x7d\n" ++
  "      \x7d;\n" ++
  "    </script>\n" ++
  "    <script defer src=\"https://cdn.jsdelivr.net/npm/mathjax@3/es5/tex-mml-chtml.js\"></script>\n" ++
  "    <script defer src=\"https://cdn.jsdelivr.net/npm/mermaid@10/dist/mermaid.min.js\"></script>\n" ++
  "    <script>\n" ++
  "      document.addEventListener('DOMContentLoaded', function () \x7b\n" ++
  "        if (window.mermaid) \x7b\n" ++
  "          mermaid.initialize(\x7b startOnLoad: false, securityLevel: 'loose' \x7d);\n" ++
  "          var blocks = document.querySelectorAll('pre > code.language-mermaid, pre > code[lang=\"mermaid\"], table.pre code[lang=\"mermaid\"]');\n" ++
  "          blocks.forEach(function (code, index) \x7b\n" ++
  "            var containerTarget = code.closest('table.pre') || code.parentElement;\n" ++
  "            if (!containerTarget) return;\n" ++
  "            var source = code.textContent || '';\n" ++
  "            var container = document.createElement('div');\n" ++
  "            container.className = 'mermaid';\n" ++
  "            container.id = 'mermaid-diagram-' + index;\n" ++
  "            container.textContent = source;\n" ++
  "            containerTarget.replaceWith(container);\n" ++
  "          \x7d);\n" ++
  "          mermaid.run();\n" ++
  "        \x7d\n" ++
  "      \x7d);\n" ++
  "    </script>\n"

/-- Constant `RUNTIME_SNIPPET` (the python triple-quoted literal, written as a
line-by-line concatenation; its first line consists of four spaces, the
marker text and a newline, followed by `SNIPPET_TAIL`). -/
def RUNTIME_SNIPPET : String :=
  "    " ++ RUNTIME_MARKER ++ "\n" ++ SNIPPET_TAIL

/-- The three placeholders (dict keys, in insertion order). -/
def licenseP : List Char := "\x7b\x7bfsdocs-license-link\x7d\x7d".toList
def licenseV : List Char :=
  "https://github.com/johnazariah/encodings/blob/main/LICENSE".toList
def releaseP : List Char := "\x7b\x7bfsdocs-release-notes-link\x7d\x7d".toList
def releaseV : List Char :=
  "https://github.com/johnazariah/encodings/blob/main/CHANGELOG.md".toList
def repoP : List Char := "\x7b\x7bfsdocs-repository-link\x7d\x7d".toList
def repoV : List Char := "https://github.com/johnazariah/encodings".toList

/-- Constant `PLACEHOLDER_REPLACEMENTS` in dict insertion order. -/
def PLACEHOLDER_REPLACEMENTS : List (List Char × List Char) :=
  [(licenseP, licenseV), (releaseP, releaseV), (repoP, repoV)]

/-- One iteration of the placeholder loop:
`if placeholder in content: content = content.replace(...); changed = True`. -/
def replaceStep (st : List Char × Bool) (pv : List Char × List Char) :
    List Char × Bool :=
  if pv.1 <:+: st.1 then (replaceAll pv.1 pv.2 st.1, true) else st

/-- The state `(content, changed)` after the placeholder loop. -/
def afterReplacements (content : List Char) : List Char × Bool :=
  PLACEHOLDER_REPLACEMENTS.foldl replaceStep (content, false)

/-- Needle `"</head>"` of of the case-insensitive search. -/
def HEAD_CLOSE : List Char := "</head>".toList

/-- The `head_close` branch: return unchanged when `</head>` was not found
(python's `-1`), else insert the snippet plus one extra newline before it. -/
def injectHead (st : List Char × Bool) : Option ℕ → List Char × Bool
  | none => st
  | some head_close =>
      (st.1.take head_close ++ RUNTIME_SNIPPET.toList ++
        '\n' :: st.1.drop head_close, true)

/-- Function `inject_runtime`, returning the final file content and the returned
boolean: placeholder replacement, then the marker check, then insertion of
the snippet and one extra newline before the first `</head>` found in the
lowercased content. -/
def inject_runtime (content : List Char) : List Char × Bool :=
  if RUNTIME_MARKER.toList <:+: (afterReplacements content).1 then
    afterReplacements content
  else
    injectHead (afterReplacements content)
      (findSub HEAD_CLOSE (lowerL (afterReplacements content).1))

/-- Linear scan for two consecutive opening braces. -/
def hasBracePair : List Char → Bool
  | [] => false
  | [_] => false
  | x :: y :: rest => (x = '{' && y = '{') || hasBracePair (y :: rest)

/-- A prefix of `A ++ B` is a prefix of `A`, or extends `A` into `B`. -/
theorem prefix_append_cases {t A B : List Char} (h : t <+: A ++ B) :
    t <+: A ∨ (A <+: t ∧ t.drop A.length <+: B) := by
  induction A generalizing t with
  | nil => right; exact ⟨ List.nil_prefix, by simpa using h⟩
  | cons a A' ih =>
    cases t with
    | nil => left; exact List.nil_prefix
    | cons x t' =>
      rw [List.cons_append] at h
      rcases List.cons_prefix_cons.mp h with ⟨rfl, h'⟩
      rcases ih h' with h1 | ⟨h2, h3⟩
      · left; exact List.cons_prefix_cons.mpr ⟨rfl, h1⟩
      · right
        refine ⟨List.cons_prefix_cons.mpr ⟨rfl, h2⟩, ?_⟩
        simpa using h3

/-- An infix of `A ++ B` lies in `A`, lies in `B`, or straddles the seam. -/
theorem infix_append_cases {p A B : List Char} (h : p <:+: A ++ B) :
    p <:+: A ∨ p <:+: B ∨
      ∃ y z, p = y ++ z ∧ y ≠ [] ∧ z ≠ [] ∧ y <:+ A ∧ z <+: B := by
  induction A with
  | nil => right; left; simpa using h
  | cons a A' ih =>
    rw [List.cons_append] at h
    rcases List.infix_cons_iff.mp h with h1 | h2
    · rcases prefix_append_cases (t := p) (A := a :: A') (B := B)
        (by simpa using h1) with hp | ⟨hp, hd⟩
      · left; exact hp.isInfix
      · obtain ⟨z, hz⟩ := hp
        by_cases hzn : z = []
        · subst hzn
          left
          rw [← hz]
          simp
        · right; right
          refine ⟨a :: A', z, by rw [← hz], by simp, hzn, List.suffix_rfl, ?_⟩
          rw [← hz, List.drop_left] at hd
          exact hd
    · rcases ih h2 with h | h | ⟨y, z, h3, h4, h5, h6, h7⟩
      · left; exact List.infix_cons h
      · right; left; exact h
      · right; right
        exact ⟨y, z, h3, h4, h5, h6.trans (List.suffix_cons a A'), h7⟩

/-- A nonempty suffix of the pattern `p` that is a prefix of the output of
`replaceAll p' v` is a prefix of the input, provided the head of the
replacement `v` does not occur in `p`. -/
theorem prefix_of_replaceAll (p' v p : List Char) (b : Char)
    (hvb : v.head? = some b) (hbp : b ∉ p) :
    ∀ n (s : List Char), s.length ≤ n → ∀ t, t <:+ p → t ≠ [] →
      t <+: replaceAll p' v s → t <+: s := by
  intro n
  induction n with
  | zero =>
    intro s hs t _ htne hpre
    obtain rfl : s = [] := List.eq_nil_of_length_eq_zero (Nat.le_zero.mp hs)
    rw [replaceAll_nil] at hpre
    exact absurd (List.prefix_nil.mp hpre) htne
  | succ n ih =>
    intro s hs t ht htne hpre
    cases s with
    | nil =>
      rw [replaceAll_nil] at hpre
      exact absurd (List.prefix_nil.mp hpre) htne
    | cons c rest =>
      obtain ⟨vtl, rfl⟩ : ∃ vtl, v = b :: vtl := by
        cases v with
        | nil => simp at hvb
        | cons vh vtl =>
          simp only [List.head?_cons, Option.some.injEq] at hvb
          exact ⟨vtl, by rw [hvb]⟩
      rw [replaceAll_cons] at hpre
      by_cases hc : p'.isPrefixOf (c :: rest) = true
      · rw [if_pos hc] at hpre
        exfalso
        obtain ⟨th, tt, rfl⟩ : ∃ th tt, t = th :: tt := by
          cases t with
          | nil => exact absurd rfl htne
          | cons th tt => exact ⟨th, tt, rfl⟩
        rcases prefix_append_cases hpre with h1 | ⟨h2, _⟩
        · rcases List.cons_prefix_cons.mp h1 with ⟨rfl, _⟩
          exact hbp (ht.subset (List.mem_cons_self _ _))
        · exact hbp (ht.subset (h2.subset (List.mem_cons_self _ _)))
      · rw [if_neg hc] at hpre
        obtain ⟨th, tt, rfl⟩ : ∃ th tt, t = th :: tt := by
          cases t with
          | nil => exact absurd rfl htne
          | cons th tt => exact ⟨th, tt, rfl⟩
        rcases List.cons_prefix_cons.mp hpre with ⟨rfl, htt⟩
        by_cases htt0 : tt = []
        · subst htt0
          exact List.cons_prefix_cons.mpr ⟨rfl, List.nil_prefix⟩
        · have http : tt <:+ p := List.IsSuffix.trans ⟨[th], rfl⟩ ht
          have hlen : rest.length ≤ n := by
            simp only [List.length_cons] at hs
            omega
          exact List.cons_prefix_cons.mpr ⟨rfl, ih rest hlen tt http htt0 htt⟩

/-- After replacing `p` by `v`, no occurrence of `p` remains: the head of
`p` does not occur in `v` and the head of `v` does not occur in `p`. -/
theorem replaceAll_no_self (p v : List Char) (a b : Char)
    (hpa : p.head? = some a) (hvb : v.head? = some b) (hav : a ∉ v) (hbp : b ∉ p) :
    ∀ n (s : List Char), s.length ≤ n → ¬ p <:+: replaceAll p v s := by
  obtain ⟨ptl, rfl⟩ : ∃ ptl, p = a :: ptl := by
    cases p with
    | nil => simp at hpa
    | cons ph ptl =>
      simp only [List.head?_cons, Option.some.injEq] at hpa
      exact ⟨ptl, by rw [hpa]⟩
  intro n
  induction n with
  | zero =>
    intro s hs h
    obtain rfl : s = [] := List.eq_nil_of_length_eq_zero (Nat.le_zero.mp hs)
    rw [replaceAll_nil] at h
    simp at h
  | succ n ih =>
    intro s hs h
    cases s with
    | nil =>
      rw [replaceAll_nil] at h
      simp at h
    | cons c rest =>
      rw [replaceAll_cons] at h
      by_cases hc : (a :: ptl).isPrefixOf (c :: rest) = true
      · rw [if_pos hc] at h
        rcases infix_append_cases h with h1 | h1 | ⟨y, z, hyz, hy, _, hyv, _⟩
        · exact hav (h1.subset (List.mem_cons_self _ _))
        · have hlen : (rest.drop ((a :: ptl).length - 1)).length ≤ n := by
            simp only [List.length_cons] at hs
            simp only [List.length_drop]
            omega
          exact ih _ hlen h1
        · obtain ⟨yh, yt, rfl⟩ : ∃ yh yt, y = yh :: yt := by
            cases y with
            | nil => exact absurd rfl hy
            | cons yh yt => exact ⟨yh, yt, rfl⟩
          have hya : yh = a := by
            rw [List.cons_append] at hyz
            exact (List.cons.injEq _ _ _ _ ▸ hyz).1.symm
          exact hav (hyv.subset (hya ▸ List.mem_cons_self yh yt))
      · rw [if_neg hc] at h
        rcases List.infix_cons_iff.mp h with h1 | h1
        · rcases List.cons_prefix_cons.mp h1 with ⟨rfl, hptl⟩
          by_cases hp0 : ptl = []
          · subst hp0
            exact hc ( List.isPrefixOf_iff_prefix.mpr
              (List.cons_prefix_cons.mpr ⟨rfl, List.nil_prefix⟩))
          · have hsuf : ptl <:+ a :: ptl := ⟨[a], rfl⟩
            have hlen : rest.length ≤ n := by
              simp only [List.length_cons] at hs
              omega
            have := prefix_of_replaceAll (a :: ptl) v (a :: ptl) b hvb hbp
              n rest hlen ptl hsuf hp0 hptl
            exact hc ( List.isPrefixOf_iff_prefix.mpr
              (List.cons_prefix_cons.mpr ⟨rfl, this⟩))
        · have hlen : rest.length ≤ n := by
            simp only [List.length_cons] at hs
            omega
          exact ih rest hlen h1

/-- Replacing a (possibly different) placeholder `p'` by `v` cannot create
an occurrence of `p`. -/
theorem replaceAll_keeps (p p' v : List Char) (a b : Char)
    (hpa : p.head? = some a) (hvb : v.head? = some b) (hav : a ∉ v) (hbp : b ∉ p) :
    ∀ n (s : List Char), s.length ≤ n → p <:+: replaceAll p' v s → p <:+: s := by
  obtain ⟨ptl, rfl⟩ : ∃ ptl, p = a :: ptl := by
    cases p with
    | nil => simp at hpa
    | cons ph ptl =>
      simp only [List.head?_cons, Option.some.injEq] at hpa
      exact ⟨ptl, by rw [hpa]⟩
  intro n
  induction n with
  | zero =>
    intro s hs h
    obtain rfl : s = [] := List.eq_nil_of_length_eq_zero (Nat.le_zero.mp hs)
    rw [replaceAll_nil] at h
    exact h
  | succ n ih =>
    intro s hs h
    cases s with
    | nil =>
      rw [replaceAll_nil] at h
      exact h
    | cons c rest =>
      rw [replaceAll_cons] at h
      have hlenr : rest.length ≤ n := by
        simp only [List.length_cons] at hs
        omega
      by_cases hc : p'.isPrefixOf (c :: rest) = true
      · rw [if_pos hc] at h
        rcases infix_append_cases h with h1 | h1 | ⟨y, z, hyz, hy, _, hyv, _⟩
        · exact absurd (h1.subset (List.mem_cons_self _ _)) hav
        · have hlen : (rest.drop (p'.length - 1)).length ≤ n := by
            simp only [List.length_drop]
            omega
          have := ih _ hlen h1
          exact List.infix_cons (this.trans (List.drop_suffix _ rest).isInfix)
        · obtain ⟨yh, yt, rfl⟩ : ∃ yh yt, y = yh :: yt := by
            cases y with
            | nil => exact absurd rfl hy
            | cons yh yt => exact ⟨yh, yt, rfl⟩
          have hya : yh = a := by
            rw [List.cons_append] at hyz
            exact (List.cons.injEq _ _ _ _ ▸ hyz).1.symm
          exact absurd (hyv.subset (hya ▸ List.mem_cons_self yh yt)) hav
      · rw [if_neg hc] at h
        rcases List.infix_cons_iff.mp h with h1 | h1
        · rcases List.cons_prefix_cons.mp h1 with ⟨rfl, hptl⟩
          by_cases hp0 : ptl = []
          · subst hp0
            exact (List.cons_prefix_cons.mpr
              ⟨rfl, List.nil_prefix⟩ : [a] <+: a :: rest).isInfix
          · have hsuf : ptl <:+ a :: ptl := ⟨[a], rfl⟩
            have := prefix_of_replaceAll p' v (a :: ptl) b hvb hbp
              n rest hlenr ptl hsuf hp0 hptl
            exact (List.cons_prefix_cons.mpr ⟨rfl, this⟩ :
              a :: ptl <+: a :: rest).isInfix
        · exact List.infix_cons (ih rest hlenr h1)

theorem hasBracePair_append_mid :
    ∀ (u w : List Char), hasBracePair (u ++ '{' :: '{' :: w) = true := by
  intro u w
  induction u with
  | nil => simp [hasBracePair]
  | cons x u' ih =>
    cases u' with
    | nil => simp [hasBracePair]
    | cons y u'' =>
      simp only [List.cons_append] at ih ⊢
      rw [hasBracePair]
      rw [ih]
      simp

/-- A brace-pair-free string contains no substring starting `"{{"`. -/
theorem hasBracePair_false_no_occurrence {s : List Char} (h : hasBracePair s = false)
    (w : List Char) : ¬ ('{' :: '{' :: w) <:+: s := by
  rintro ⟨u, t, hut⟩
  have : hasBracePair s = true := by
    rw [← hut]
    have : u ++ ('{' :: '{' :: w) ++ t = u ++ '{' :: '{' :: (w ++ t) := by simp
    rw [this]
    exact hasBracePair_append_mid u (w ++ t)
  rw [h] at this
  exact Bool.false_ne_true this

theorem snippet_pair_free : hasBracePair RUNTIME_SNIPPET.toList = false := by decide

theorem snippet_last : RUNTIME_SNIPPET.toList.getLast? = some '\n' := by decide

theorem snippet_head : RUNTIME_SNIPPET.toList.head? = some ' ' := by decide

theorem snippet_long : (29 : ℕ) < RUNTIME_SNIPPET.toList.length := by decide

theorem marker_in_snippet :
    RUNTIME_MARKER.toList <:+: RUNTIME_SNIPPET.toList := by
  have h : RUNTIME_SNIPPET.toList =
      "    ".toList ++ RUNTIME_MARKER.toList ++
        ("\n".toList ++ SNIPPET_TAIL.toList) := by
    simp [RUNTIME_SNIPPET, String.toList, String.data_append, List.append_assoc]
  rw [h]
  exact ⟨"    ".toList, "\n".toList ++ SNIPPET_TAIL.toList, by simp [List.append_assoc]⟩

/-- The marker occurs in the content produced by the insertion branch. -/
theorem marker_in_updated (c3 : List Char) (i : ℕ) :
    RUNTIME_MARKER.toList <:+:
      (c3.take i ++ RUNTIME_SNIPPET.toList ++ '\n' :: c3.drop i) := by
  have h1 : RUNTIME_SNIPPET.toList <:+:
      (c3.take i ++ RUNTIME_SNIPPET.toList ++ '\n' :: c3.drop i) := by
    rw [List.append_assoc]
    exact ((List.prefix_append RUNTIME_SNIPPET.toList
      ('\n' :: c3.drop i)).isInfix).trans
      (List.suffix_append (c3.take i) _).isInfix
  exact marker_in_snippet.trans h1

/-- No placeholder occurs in the content produced by the insertion branch,
when none occurred before the insertion. -/
theorem placeholder_absent_updated
    {p ptail : List Char} (hp : p = '{' :: '{' :: ptail)
    (hsp : ' ' ∉ p) (hplen : p.length ≤ 29)
    (c3 : List Char) (i : ℕ) (habs : ¬ p <:+: c3) :
    ¬ p <:+: (c3.take i ++ RUNTIME_SNIPPET.toList ++ '\n' :: c3.drop i) := by
  intro h
  rw [List.append_assoc] at h
  rcases infix_append_cases h with h1 | h1 | ⟨y, z, hyz, _, hz, _, hzB⟩
  · exact habs (h1.trans ( List.take_prefix i c3).isInfix)
  · rcases infix_append_cases h1 with h2 | h2 | ⟨y, z, hyz, hy, _, hyS, _⟩
    · rw [hp] at h2
      exact hasBracePair_false_no_occurrence snippet_pair_free ptail h2
    · rcases List.infix_cons_iff.mp h2 with h3 | h3
      · rw [hp] at h3
        rcases List.cons_prefix_cons.mp h3 with ⟨hh, _⟩
        exact absurd hh (by decide)
      · exact habs (h3.trans (List.drop_suffix i c3).isInfix)
    · obtain ⟨yh, yt, rfl⟩ : ∃ yh yt, y = yh :: yt := by
        cases y with
        | nil => exact absurd rfl hy
        | cons yh yt => exact ⟨yh, yt, rfl⟩
      have hyh : yh = '{' := by
        rw [hp, List.cons_append] at hyz
        exact ((List.cons.injEq _ _ _ _ ▸ hyz).1).symm
      cases yt with
      | nil =>
        rcases hyS with ⟨u, hu⟩
        have hlast : RUNTIME_SNIPPET.toList.getLast? = some yh := by
          rw [← hu]
          exact List.getLast?_concat u
        rw [snippet_last] at hlast
        rw [hyh] at hlast
        simp at hlast
      | cons y2 yt' =>
        have hy2 : y2 = '{' := by
          rw [hp, List.cons_append, List.cons_append] at hyz
          have := (List.cons.injEq _ _ _ _ ▸ hyz).2
          exact ((List.cons.injEq _ _ _ _ ▸ this).1).symm
        subst hyh
        subst hy2
        exact hasBracePair_false_no_occurrence snippet_pair_free yt' hyS.isInfix
  · rcases prefix_append_cases hzB with h2 | ⟨h2, _⟩
    · obtain ⟨zh, zt, rfl⟩ : ∃ zh zt, z = zh :: zt := by
        cases z with
        | nil => exact absurd rfl hz
        | cons zh zt => exact ⟨zh, zt, rfl⟩
      have hzh : zh = ' ' := by
        rcases h2 with ⟨w, hw⟩
        have := congrArg List.head? hw
        simp only [List.cons_append, List.head?_cons] at this
        rw [snippet_head] at this
        exact (Option.some.injEq _ _ ▸ this)
      apply hsp
      rw [hyz, hzh]
      exact List.mem_append.mpr (Or.inr (List.mem_cons_self _ _))
    · have h3 : RUNTIME_SNIPPET.toList.length ≤ z.length := h2.length_le
      have h4 : z.length ≤ p.length := by
        rw [hyz, List.length_append]
        omega
      have h5 := snippet_long
      omega

/-- One placeholder pass leaves no occurrence of its own placeholder. -/
theorem replaceStep_no_self (p v : List Char) (a b : Char)
    (hpa : p.head? = some a) (hvb : v.head? = some b) (hav : a ∉ v) (hbp : b ∉ p)
    (st : List Char × Bool) : ¬ p <:+: (replaceStep st (p, v)).1 := by
  by_cases h : p <:+: st.1
  · rw [show replaceStep st (p, v) = (replaceAll p v st.1, true) from if_pos h]
    exact replaceAll_no_self p v a b hpa hvb hav hbp st.1.length st.1 le_rfl
  · rw [show replaceStep st (p, v) = st from if_neg h]
    exact h

/-- A placeholder pass cannot introduce an absent placeholder. -/
theorem replaceStep_keeps (p p' v' : List Char) (a b : Char)
    (hpa : p.head? = some a) (hvb : v'.head? = some b) (hav : a ∉ v') (hbp : b ∉ p)
    (st : List Char × Bool) (h : ¬ p <:+: st.1) :
    ¬ p <:+: (replaceStep st (p', v')).1 := by
  by_cases hc : p' <:+: st.1
  · rw [show replaceStep st (p', v') = (replaceAll p' v' st.1, true) from if_pos hc]
    intro hcon
    exact h (replaceAll_keeps p p' v' a b hpa hvb hav hbp st.1.length st.1 le_rfl hcon)
  · rw [show replaceStep st (p', v') = st from if_neg hc]
    exact h

/-- A second run on content without placeholders, with the marker present
or no `</head>` to find, returns `False` and does not modify the content. -/
theorem run2_no_change (c : List Char)
    (h1 : ¬ licenseP <:+: c) (h2 : ¬ releaseP <:+: c) (h3 : ¬ repoP <:+: c)
    (hdone : RUNTIME_MARKER.toList <:+: c ∨ findSub HEAD_CLOSE (lowerL c) = none) :
    inject_runtime c = (c, false) := by
  have hfold : afterReplacements c = (c, false) := by
    show replaceStep (replaceStep (replaceStep (c, false) (licenseP, licenseV))
        (releaseP, releaseV)) (repoP, repoV) = (c, false)
    rw [show replaceStep (c, false) (licenseP, licenseV) = (c, false) from if_neg h1]
    rw [show replaceStep (c, false) (releaseP, releaseV) = (c, false) from if_neg h2]
    exact if_neg h3
  unfold inject_runtime
  rw [hfold]
  show (if RUNTIME_MARKER.toList <:+: c then ((c, false) : List Char × Bool)
    else injectHead (c, false) (findSub HEAD_CLOSE (lowerL c))) = (c, false)
  by_cases hm : RUNTIME_MARKER.toList <:+: c
  · rw [if_pos hm]
  · rcases hdone with hmm | hf
    · exact absurd hmm hm
    · rw [if_neg hm, hf]
      rfl

/-- C10.  `inject_runtime` is idempotent: after one application the content
contains no placeholder; it contains the runtime marker or has no `</head>`
to inject into; and a second application returns `False` and leaves the
content byte-for-byte unchanged — the snippet is never inserted twice. -/
theorem inject_runtime_idempotent (content : List Char) :
    (¬ licenseP <:+: (inject_runtime content).1 ∧
     ¬ releaseP <:+: (inject_runtime content).1 ∧
     ¬ repoP <:+: (inject_runtime content).1) ∧
    (RUNTIME_MARKER.toList <:+: (inject_runtime content).1 ∨
      findSub HEAD_CLOSE (lowerL (inject_runtime content).1) = none) ∧
    inject_runtime ((inject_runtime content).1) = ((inject_runtime content).1, false) := by
  have hshape : afterReplacements content =
      replaceStep (replaceStep (replaceStep (content, false) (licenseP, licenseV))
        (releaseP, releaseV)) (repoP, repoV) := rfl
  have habs3 : ¬ repoP <:+: (afterReplacements content).1 := by
    rw [hshape]
    exact replaceStep_no_self repoP repoV '{' 'h'
      (by decide) (by decide) (by decide) (by decide) _
  have habs2 : ¬ releaseP <:+: (afterReplacements content).1 := by
    rw [hshape]
    apply replaceStep_keeps releaseP repoP repoV '{' 'h'
      (by decide) (by decide) (by decide) (by decide)
    exact replaceStep_no_self releaseP releaseV '{' 'h'
      (by decide) (by decide) (by decide) (by decide) _
  have habs1 : ¬ licenseP <:+: (afterReplacements content).1 := by
    rw [hshape]
    apply replaceStep_keeps licenseP repoP repoV '{' 'h'
      (by decide) (by decide) (by decide) (by decide)
    apply replaceStep_keeps licenseP releaseP releaseV '{' 'h'
      (by decide) (by decide) (by decide) (by decide)
    exact replaceStep_no_self licenseP licenseV '{' 'h'
      (by decide) (by decide) (by decide) (by decide) _
  by_cases hm : RUNTIME_MARKER.toList <:+: (afterReplacements content).1
  · have hrun : inject_runtime content = afterReplacements content := by
      unfold inject_runtime
      rw [if_pos hm]
    rw [hrun]
    exact ⟨⟨habs1, habs2, habs3⟩, Or.inl hm,
      run2_no_change _ habs1 habs2 habs3 (Or.inl hm)⟩
  · cases hfind : findSub HEAD_CLOSE (lowerL (afterReplacements content).1) with
    | none =>
      have hrun : inject_runtime content = afterReplacements content := by
        unfold inject_runtime
        rw [if_neg hm, hfind]
        rfl
      rw [hrun]
      exact ⟨⟨habs1, habs2, habs3⟩, Or.inr hfind,
        run2_no_change _ habs1 habs2 habs3 (Or.inr hfind)⟩
    | some i =>
      have hrun : inject_runtime content =
          ((afterReplacements content).1.take i ++ RUNTIME_SNIPPET.toList ++
            '\n' :: (afterReplacements content).1.drop i, true) := by
        unfold inject_runtime
        rw [if_neg hm, hfind]
        rfl
      rw [hrun]
      have u1 := placeholder_absent_updated
        (by decide : licenseP = '{' :: '{' :: "fsdocs-license-link\x7d\x7d".toList)
        (by decide) (by decide) (afterReplacements content).1 i habs1
      have u2 := placeholder_absent_updated
        (by decide :
          releaseP = '{' :: '{' :: "fsdocs-release-notes-link\x7d\x7d".toList)
        (by decide) (by decide) (afterReplacements content).1 i habs2
      have u3 := placeholder_absent_updated
        (by decide : repoP = '{' :: '{' :: "fsdocs-repository-link\x7d\x7d".toList)
        (by decide) (by decide) (afterReplacements content).1 i habs3
      have hmup := marker_in_updated (afterReplacements content).1 i
      exact ⟨⟨u1, u2, u3⟩, Or.inl hmup,
        run2_no_change _ u1 u2 u3 (Or.inl hmup)⟩

end InjectPagesRuntime
